import Mathlib

/-!
# Verification of the lem-in ant router (src/main.go)

This file gives a shallow embedding, in Lean 4, of the Go program in
src/main.go of the lem-in repository: the input parser (`readLoop`),
the DFS path enumerator (`findAllPaths` / `findShortestPaths`), the
compatible-group construction (`calculateSolutionGroups`), the greedy
ant distributor (`distributeAnts`), and the turn simulator
(`getAntMoves`).  Go maps keyed by strings are modelled by association
lists that preserve the observable behaviour (membership, overwrite,
zero values); the per-room neighbour lists preserve insertion order
exactly as Go slices do.  Theorems about the embedding settle the
specification claims.
-/

namespace LemIn

/-- A room of the farm: name, coordinates, start and end flags
(struct `Room`, src/main.go). -/
structure Room where
  name : String
  x : Int
  y : Int
  isStart : Bool
  isEnd : Bool
deriving Repr, DecidableEq

/-- The graph (struct `Graph`, src/main.go).  `rooms` keeps insertion
order; `edges` is the adjacency stored as directed pairs, with both
directions appended for each undirected tunnel, exactly mirroring the
two `append` calls of `AddConnection`. -/
structure Graph where
  rooms : List Room
  edges : List (String × String)
  antCount : Int
  startRoom : String
  endRoom : String
deriving Repr, DecidableEq

/-- `NewGraph` (src/main.go:30). -/
def emptyGraph : Graph := ⟨[], [], 0, "", ""⟩

/-- Membership test on the room map (`g.Rooms[name]`). -/
def Graph.hasRoom (g : Graph) (name : String) : Bool :=
  g.rooms.any (fun r => r.name == name)

/-- `AddRoom` (src/main.go:38): duplicates are an error; the start and
end markers overwrite any previous one. -/
def Graph.addRoom (g : Graph) (name : String) (x y : Int)
    (isStart isEnd : Bool) : Except String Graph :=
  if g.hasRoom name then .error ("duplicate room: " ++ name)
  else .ok { g with
    rooms := g.rooms ++ [⟨name, x, y, isStart, isEnd⟩]
    startRoom := if isStart then name else g.startRoom
    endRoom := if isEnd then name else g.endRoom }

/-- `AddConnection` (src/main.go:53) as observed at its call site
(src/main.go:121): the returned error is discarded, so an edge naming
an unknown room leaves the graph unchanged. -/
def Graph.addConnection (g : Graph) (a b : String) : Graph :=
  if g.hasRoom a && g.hasRoom b then
    { g with edges := g.edges ++ [(a, b), (b, a)] }
  else g

/-- The duplicate-connection scan of `readInput` (src/main.go:113). -/
def Graph.hasEdge (g : Graph) (a b : String) : Bool :=
  g.edges.any (fun kv => (kv.1 == a && kv.2 == b) || (kv.1 == b && kv.2 == a))

/-- Output channel of a diagnostic. -/
inductive Chan where
  | stdout
  | stderr
deriving Repr, DecidableEq

/-- A fatal diagnostic: the process exit code, the stream the message
is printed to, and the message text. -/
structure Failure where
  exitCode : Nat
  chan : Chan
  msg : String
deriving Repr, DecidableEq

/-- `strings.HasPrefix(line, "#")`: the first character is `#`. -/
def isCommentLine (s : String) : Bool :=
  match s.data with
  | c :: _ => c = '#'
  | [] => false

/-- Decimal digit value of a character, if any. -/
def digitVal (c : Char) : Option Nat :=
  if '0' ≤ c ∧ c ≤ '9' then some (c.toNat - '0'.toNat) else none

/-- Accumulate decimal digits; any non-digit is an error. -/
def digitsToNatAux : List Char → Nat → Option Nat
  | [], acc => some acc
  | c :: cs, acc =>
    match digitVal c with
    | some d => digitsToNatAux cs (acc * 10 + d)
    | none => none

/-- A non-empty all-digit string to a natural number. -/
def digitsToNat : List Char → Option Nat
  | [] => none
  | cs => digitsToNatAux cs 0

/-- `strconv.Atoi`: optional sign followed by at least one digit. -/
def goAtoi (s : String) : Option Int :=
  match s.data with
  | [] => none
  | '+' :: ds => (digitsToNat ds).map Int.ofNat
  | '-' :: ds => (digitsToNat ds).map (fun n => -(Int.ofNat n))
  | ds => (digitsToNat ds).map Int.ofNat

/-- Split a character list at every `-`, keeping empty parts —
`strings.Split(line, "-")`. -/
def splitDash : List Char → List (List Char)
  | [] => [[]]
  | c :: rest =>
    match splitDash rest with
    | [] => [[]]
    | cur :: parts => if c = '-' then [] :: cur :: parts else (c :: cur) :: parts

/-- `strings.Split(line, "-")` on strings. -/
def goSplitDash (s : String) : List String :=
  (splitDash s.data).map String.mk

/-- Split at whitespace for `strings.Fields`. -/
def splitWs : List Char → List (List Char)
  | [] => [[]]
  | c :: rest =>
    match splitWs rest with
    | [] => [[]]
    | cur :: parts => if c.isWhitespace then [] :: cur :: parts else (c :: cur) :: parts

/-- `strings.Fields` on a single input line: whitespace-separated
non-empty tokens. -/
def goFields (s : String) : List String :=
  ((splitWs s.data).filter (fun t => t ≠ [])).map String.mk

/-- The scanner loop of `readInput` (src/main.go:82-145) plus the final
missing-start-or-end check (src/main.go:151).  State: remaining lines,
graph so far, whether the ant-count line was consumed (`lineNumber`),
and the pending `##start` / `##end` flags. -/
def readLoop : List String → Graph → Bool → Bool → Bool → Except Failure Graph
  | [], g, _, _, _ =>
    if g.startRoom = "" || g.endRoom = "" then
      .error ⟨0, .stdout, "ERROR: missing start or end room"⟩
    else .ok g
  | line :: rest, g, sawCount, pendStart, pendEnd =>
    if isCommentLine line then
      if line = "##start" then readLoop rest g sawCount true pendEnd
      else if line = "##end" then readLoop rest g sawCount pendStart true
      else readLoop rest g sawCount pendStart pendEnd
    else if !sawCount then
      match goAtoi line with
      | some n =>
        if n ≤ 0 then
          .error ⟨1, .stdout,
            "ERROR: invalid data format, number of ants must be a positive integer"⟩
        else readLoop rest { g with antCount := n } true pendStart pendEnd
      | none =>
        .error ⟨1, .stdout,
          "ERROR: invalid data format, number of ants must be a positive integer"⟩
    else if '-' ∈ line.data then
      match goSplitDash line with
      | [a, b] =>
        if a = b then
          .error ⟨0, .stdout, "ERROR: self referencing room: " ++ line⟩
        else if g.hasEdge a b then
          .error ⟨1, .stdout,
            "ERROR: invalid data format, identical connection already exists: " ++ line⟩
        else readLoop rest (g.addConnection a b) sawCount pendStart pendEnd
      | _ => .error ⟨1, .stdout, "ERROR: invalid connection: " ++ line⟩
    else
      match goFields line with
      | [name, xs, ys] =>
        match goAtoi xs, goAtoi ys with
        | some x, some y =>
          match g.addRoom name x y pendStart pendEnd with
          | .ok g2 => readLoop rest g2 sawCount false false
          | .error e => .error ⟨1, .stdout, "ERROR: " ++ e⟩
        | none, _ => .error ⟨1, .stdout, "ERROR: invalid x coordinate"⟩
        | some _, none => .error ⟨1, .stdout, "ERROR: invalid y coordinate"⟩
      | _ => .error ⟨1, .stdout, "ERROR: invalid room format: " ++ line⟩

/-- `readInput` (src/main.go:67) applied to the list of input lines.
The file-open step, which cannot be modelled over lines, is the only
part elided; it prints `ERROR: ...` to stderr and exits 1. -/
def readInputE (lines : List String) : Except Failure Graph :=
  readLoop lines emptyGraph false false false

/-- `graph.Connections[room]` — the neighbour list, in insertion
order. -/
def neighbors (g : Graph) (room : String) : List String :=
  (g.edges.filter (fun kv => kv.1 == room)).map Prod.snd

/-- `findAllPaths` (src/main.go:164): recursive DFS collecting all
simple paths from `current` to the end room.  The `visited` map of the
Go code holds exactly the rooms of the current stack, so it is
represented by the path itself; fuel bounds the recursion depth (the
Go recursion depth is bounded by the number of rooms, so fuel
`g.rooms.length + 1` reproduces the code exactly). -/
def findAllPaths (g : Graph) :
    Nat → String → List String → List (List String) → List (List String)
  | 0, _, _, acc => acc
  | fuel+1, current, path, acc =>
    let path2 := path ++ [current]
    if current = g.endRoom then acc ++ [path2]
    else
      (neighbors g current).foldl
        (fun a n => if n ∈ path2 then a else findAllPaths g fuel n path2 a)
        acc

/-- Insertion step for the length sort. -/
def insertByLen (p : List String) : List (List String) → List (List String)
  | [] => [p]
  | q :: qs => if p.length < q.length then p :: q :: qs else q :: insertByLen p qs

/-- Sort of the path list by length, shortest first (`sort.Slice` at
src/main.go:191 with `len(i) < len(j)`; on the small candidate lists
involved Go uses insertion sort, which keeps discovery order between
equal lengths, as does this fold). -/
def sortByLen (l : List (List String)) : List (List String) :=
  l.foldl (fun acc p => insertByLen p acc) []

/-- `findShortestPaths` (src/main.go:185). -/
def findShortestPaths (g : Graph) (start : String) : List (List String) :=
  sortByLen (findAllPaths g (g.rooms.length + 1) start [] [])

/-- `solutionsCompatible` (src/main.go:198): true iff no room of `p1`
other than `s` and `e` occurs anywhere in `p2`. -/
def solutionsCompatible (p1 p2 : List String) (s e : String) : Bool :=
  p1.all (fun r1 => r1 == s || r1 == e || p2.all (fun r2 => !(r1 == r2)))

/-- `solutionCompatibleWithGroup` (src/main.go:213). -/
def solutionCompatibleWithGroup (cand : List String)
    (group : List (List String)) (s e : String) : Bool :=
  group.all (fun p => solutionsCompatible p cand s e)

/-- The inner loop of `calculateSolutionGroups` (src/main.go:233-244):
starting from `paths[i]`, scan the other paths in order and greedily
add each one compatible with the group so far. -/
def buildGroup (paths : List (List String)) (i : Nat) (p1 : List String)
    (s e : String) : List (List String) :=
  paths.enum.foldl
    (fun group ji =>
      if ji.1 = i then group
      else if solutionCompatibleWithGroup ji.2 group s e then group ++ [ji.2]
      else group)
    [p1]

/-- `calculateSolutionGroups` (src/main.go:223). -/
def calculateSolutionGroups (paths : List (List String)) (s e : String) :
    List (List (List String)) :=
  if paths.length ≤ 1 then (if paths.length = 1 then [paths] else [])
  else paths.enum.map (fun ip => buildGroup paths ip.1 ip.2 s e)

/-- The min scan of `distributeAnts` (src/main.go:258-265): first index
of the strictly smallest load.  Arguments: remaining loads, index of
the next one, best index and best load so far. -/
def scanMinAux : List Nat → Nat → Nat → Nat → Nat × Nat
  | [], _, mIdx, mLoad => (mIdx, mLoad)
  | l :: ls, i, mIdx, mLoad =>
    if l < mLoad then scanMinAux ls (i+1) i l
    else scanMinAux ls (i+1) mIdx mLoad

/-- `minLoad := loads[0]; minIndex := 0` followed by the scan; `none`
models the out-of-bounds panic on an empty slice. -/
def minIndexLoad : List Nat → Option (Nat × Nat)
  | [] => none
  | l :: ls => some (scanMinAux (l :: ls) 0 0 l)

/-- The ant loop of `distributeAnts` (src/main.go:257-268).  The
assignment map, keyed by ant id 1..N, is represented as the
association list built in key order; the final `loads` slice (the
loop's local state) is returned alongside it so that theorems can
speak about the final costs. -/
def distLoop (paths : List (List String)) :
    Nat → Nat → List Nat → List (Nat × List String) →
    Option (List (Nat × List String) × List Nat)
  | 0, _, loads, asg => some (asg, loads)
  | n+1, antIdx, loads, asg =>
    match minIndexLoad loads with
    | none => none
    | some mi =>
      distLoop paths n (antIdx+1) (loads.set mi.1 (loads.getD mi.1 0 + 1))
        (asg ++ [(antIdx, paths.getD mi.1 [])])

/-- `distributeAnts` (src/main.go:249): initial loads are the path
lengths (`loads[i] = len(path)`); `none` models the panic when the
path list is empty but at least one ant must be placed. -/
def distributeAnts (paths : List (List String)) (ants : Int) :
    Option (List (Nat × List String)) :=
  (distLoop paths ants.toNat 1 (paths.map List.length) []).map Prod.fst

/-- One emitted move: ant id and destination room. -/
abbrev Move := Nat × String

/-- Simulator entry: an ant (id and assigned path) with its current
position index into the path. -/
abbrev Ent := (Nat × List String) × Nat

/-- Lookup in the `tunnelsUsed` map (`map[string]string`): a missing
key reads as the zero value `""`; the association list is prepended
on write so the first hit is the latest write, exactly the overwrite
semantics of the Go map. -/
def tunGet : List (String × String) → String → String
  | [], _ => ""
  | kv :: rest, cur => if kv.1 = cur then kv.2 else tunGet rest cur

/-- `roomFull[r] = false`: drop `r` from the occupied set (the set is
kept duplicate-free, so removing the first occurrence removes the
room). -/
def occFree : List String → String → List String
  | [], _ => []
  | x :: xs, r => if x = r then xs else x :: occFree xs r

/-- `roomFull[r] = true`: the occupied set gains `r`. -/
def occMark (occ : List String) (r : String) : List String :=
  if r ∈ occ then occ else r :: occ

/-- Result of processing the ant list once (one turn). -/
structure StepRes where
  ents : List Ent
  occ : List String
  tus : List (String × String)
  moves : List Move
  fin : Nat
deriving Repr

/-- The per-ant loop of one turn of `getAntMoves` (src/main.go:301-322),
processing ants in list (= ascending id) order.  A move happens iff the
next room is not occupied and the `tunnelsUsed` entry for the current
room differs from the next room; on a move the next room is marked
occupied unless it is the end room, the current room is marked free
immediately, and the tunnel map entry for the current room is
overwritten. -/
def stepAnts (e : String) :
    List Ent → List String → List (String × String) → StepRes
  | [], occ, tus => ⟨[], occ, tus, [], 0⟩
  | ((id, path), p) :: rest, occ, tus =>
    if p + 1 < path.length then
      let cur := path.getD p ""
      let nxt := path.getD (p+1) ""
      if nxt ∉ occ ∧ tunGet tus cur ≠ nxt then
        let occ1 := if nxt ≠ e then occMark occ nxt else occ
        let occ2 := occFree occ1 cur
        let r := stepAnts e rest occ2 ((cur, nxt) :: tus)
        ⟨((id, path), p+1) :: r.ents, r.occ, r.tus, (id, nxt) :: r.moves, r.fin⟩
      else
        let r := stepAnts e rest occ tus
        ⟨((id, path), p) :: r.ents, r.occ, r.tus, r.moves, r.fin⟩
    else
      let r := stepAnts e rest occ tus
      ⟨((id, path), p) :: r.ents, r.occ, r.tus, r.moves, r.fin + 1⟩

/-- One turn: `tunnelsUsed` starts fresh (src/main.go:296), the
occupied set persists across turns. -/
def doTurn (e : String) (ents : List Ent) (occ : List String) : StepRes :=
  stepAnts e ents occ []

/-- The turn loop of `getAntMoves` (src/main.go:295-332): append the
turn's moves if any, stop when every ant has finished its path.  Fuel
makes the recursion well founded; `none` is a run that did not finish
within the fuel (the Go loop would still be running). -/
def simLoop (e : String) :
    Nat → List Ent → List String → List (List Move) → Option (List (List Move))
  | 0, _, _, _ => none
  | fuel+1, ents, occ, acc =>
    let r := doTurn e ents occ
    let acc2 := if r.moves.isEmpty then acc else acc ++ [r.moves]
    if r.fin = ents.length then some acc2
    else simLoop e fuel r.ents r.occ acc2

/-- Insertion step for the id sort. -/
def insertById (x : Nat × List String) :
    List (Nat × List String) → List (Nat × List String)
  | [] => [x]
  | y :: ys => if x.1 < y.1 then x :: y :: ys else y :: insertById x ys

/-- The sort of assignments by ant id (src/main.go:287-289).  Ant ids
are distinct map keys, so the sorted sequence is unique and any
iteration order of the Go map produces this list. -/
def sortById : List (Nat × List String) → List (Nat × List String)
  | [] => []
  | x :: xs => insertById x (sortById xs)

/-- Fuel sufficient for any terminating run: the simulation makes at
least one move per turn whenever it terminates, and needs at most
one move per position step. -/
def simFuel (entries : List (Nat × List String)) : Nat :=
  (entries.map (fun ep => ep.2.length)).sum + 1

/-- The movement log of `getAntMoves` (src/main.go:274) as a list of
turns, each a list of moves in processing order. -/
def getAntMovesLog (entries : List (Nat × List String)) (e : String) :
    Option (List (List Move)) :=
  simLoop e (simFuel entries) ((sortById entries).map (fun ep => (ep, 0))) [] []

/-- One move token `L<id>-<room>` (src/main.go:311). -/
def moveStr (m : Move) : String := "L" ++ toString m.1 ++ "-" ++ m.2

/-- The string built by `getAntMoves`: one line per non-empty turn,
each terminated by a newline. -/
def renderLog (log : List (List Move)) : String :=
  log.foldl (fun s line => s ++ " ".intercalate (line.map moveStr) ++ "\n") ""

/-- `getAntMoves` proper: the emitted string. -/
def getAntMoves (entries : List (Nat × List String)) (e : String) :
    Option String :=
  (getAntMovesLog entries e).map renderLog

/-- Routing-stage failures of `main` (src/main.go:357-369). -/
inductive PipeErr where
  | noPath
  | noGroup
  | fuelOut
deriving Repr, DecidableEq

/-- The selection of the emitted solution (src/main.go:380-385): start
from the first candidate and replace it whenever a later one has
strictly fewer lines (`strings.Count(solution, "\n")` equals the number
of turns in the log). -/
def selectShortest : List (List (List Move)) → List (List Move)
  | [] => []
  | l :: ls => ls.foldl (fun best c => if c.length < best.length then c else best) l

/-- The routing pipeline of `main` (src/main.go:357-385): enumerate and
sort paths, build the candidate groups, distribute the ants for each
group, simulate each, and keep the log with the fewest lines. -/
def pipelineLog (g : Graph) : Except PipeErr (List (List Move)) :=
  let paths := findShortestPaths g g.startRoom
  if paths.isEmpty then .error .noPath
  else
    let groups := calculateSolutionGroups paths g.startRoom g.endRoom
    if groups.isEmpty then .error .noGroup
    else
      match (groups.map (fun grp =>
          (distributeAnts grp g.antCount).bind
            (fun asg => getAntMovesLog asg g.endRoom))).mapM id with
      | none => .error .fuelOut
      | some logs => .ok (selectShortest logs)

/-- Result of a whole run of `main` on the line list of an input file:
either the chosen movement log (process exit status 0), or a
diagnostic. -/
inductive MainResult where
  | success (log : List (List Move))
  | failure (f : Failure)
deriving Repr, DecidableEq

/-- `main` (src/main.go:346): parse, then route; `ERROR: No valid path
found` and `ERROR: No compatible solution group found` are printed to
stdout followed by a plain `return`, so the process exits 0 on them. -/
def mainResult (lines : List String) : MainResult :=
  match readInputE lines with
  | .error f => .failure f
  | .ok g =>
    match pipelineLog g with
    | .error .noPath => .failure ⟨0, .stdout, "ERROR: No valid path found"⟩
    | .error .noGroup => .failure ⟨0, .stdout, "ERROR: No compatible solution group found"⟩
    | .error .fuelOut => .failure ⟨0, .stdout, ""⟩
    | .ok log => .success log

/-! ## Helper lemmas for the distributor -/

theorem scanMinAux_fst_lt (ls : List Nat) (i mIdx mLoad : Nat) (h : mIdx < i) :
    (scanMinAux ls i mIdx mLoad).1 < i + ls.length := by
  induction ls generalizing i mIdx mLoad with
  | nil => simpa using h
  | cons l t ih =>
    simp only [scanMinAux]
    split
    · have := ih (i+1) i l (by omega)
      simpa [Nat.add_assoc, Nat.add_comm 1 t.length] using by omega
    · have := ih (i+1) mIdx mLoad (by omega)
      simp only [List.length_cons]
      omega

theorem minIndexLoad_fst_lt (loads : List Nat) (mi : Nat × Nat)
    (h : minIndexLoad loads = some mi) : mi.1 < loads.length := by
  match loads with
  | [] => simp [minIndexLoad] at h
  | l :: ls =>
    simp only [minIndexLoad, Option.some_inj] at h
    subst h
    have : scanMinAux (l :: ls) 0 0 l = scanMinAux ls 1 0 l := by
      simp [scanMinAux]
    rw [this]
    have := scanMinAux_fst_lt ls 1 0 l (by omega)
    simp only [List.length_cons]
    omega

theorem distLoop_spec (paths : List (List String)) (k : Nat) :
    ∀ (antIdx : Nat) (loads : List Nat) (asg : List (Nat × List String)),
    loads.length = paths.length → loads ≠ [] →
    ∃ extra L, distLoop paths k antIdx loads asg = some (asg ++ extra, L) ∧
      extra.map Prod.fst = List.range' antIdx k ∧
      ∀ ap ∈ extra, ap.2 ∈ paths := by
  induction k with
  | zero =>
    intro antIdx loads asg _ _
    exact ⟨[], loads, by simp [distLoop], by simp [List.range'], by simp⟩
  | succ n ih =>
    intro antIdx loads asg hlen hne
    match hml : minIndexLoad loads with
    | none =>
      cases loads with
      | nil => exact absurd rfl hne
      | cons l ls => simp [minIndexLoad] at hml
    | some mi =>
      have hmi : mi.1 < loads.length := minIndexLoad_fst_lt loads mi hml
      have hlen2 : (loads.set mi.1 (loads.getD mi.1 0 + 1)).length = paths.length := by
        simpa using hlen
      have hne2 : loads.set mi.1 (loads.getD mi.1 0 + 1) ≠ [] := by
        have h0 : 0 < (loads.set mi.1 (loads.getD mi.1 0 + 1)).length := by
          simp only [List.length_set]
          omega
        exact List.length_pos.mp h0
      obtain ⟨extra, L, he, hk, hm⟩ :=
        ih (antIdx + 1) (loads.set mi.1 (loads.getD mi.1 0 + 1))
          (asg ++ [(antIdx, paths.getD mi.1 [])]) hlen2 hne2
      refine ⟨(antIdx, paths.getD mi.1 []) :: extra, L, ?_, ?_, ?_⟩
      · simp only [distLoop, hml, he, List.append_assoc, List.singleton_append]
      · simpa [List.range'] using hk
      · intro ap hap
        rcases List.mem_cons.mp hap with h | h
        · subst h
          have hmi2 : mi.1 < paths.length := by omega
          rw [List.getD_eq_getElem paths [] hmi2]
          exact List.getElem_mem hmi2
        · exact hm ap h

/-- **C10.**  `distributeAnts` (src/main.go:249) reads `loads[0]` inside
the per-ant loop, so a call with an empty path list and at least one
ant to place panics (modelled by `none`); with at least one path it
returns the assignment whose keys are exactly the ant ids `1..N` in
order, each bound to one of the given paths. -/
theorem C10_distributeAnts_precondition (paths : List (List String)) (ants : Int) :
    (paths = [] → 1 ≤ ants → distributeAnts paths ants = none) ∧
    (paths ≠ [] →
      ∃ asg, distributeAnts paths ants = some asg ∧
        asg.map Prod.fst = List.range' 1 ants.toNat ∧
        ∀ ap ∈ asg, ap.2 ∈ paths) := by
  constructor
  · intro hp ha
    subst hp
    have h1 : 1 ≤ ants.toNat := by omega
    match hk : ants.toNat with
    | 0 => omega
    | k + 1 => simp [distributeAnts, hk, distLoop, minIndexLoad]
  · intro hp
    have hlen : (paths.map List.length).length = paths.length := by simp
    have hne : paths.map List.length ≠ [] := by simpa using hp
    obtain ⟨extra, L, he, hk, hm⟩ := distLoop_spec paths ants.toNat 1 (paths.map List.length) [] hlen hne
    exact ⟨extra, by simp [distributeAnts, he], hk, hm⟩

/-- Witness for C10: at the concrete interface values, an empty path
list with one ant panics, and one path with two ants yields the keys
`[1, 2]` with values among the given paths. -/
theorem C10_witness :
    distributeAnts [] 1 = none ∧
    ∃ asg, distributeAnts [["S", "T"]] 2 = some asg ∧
      asg.map Prod.fst = List.range' 1 (2 : Int).toNat ∧
      ∀ ap ∈ asg, ap.2 ∈ [["S", "T"]] :=
  ⟨(C10_distributeAnts_precondition [] 1).1 rfl (by decide),
   (C10_distributeAnts_precondition [["S", "T"]] 2).2 (by decide)⟩

/-! ## C6: mid-turn freeing of vacated rooms -/

/-- **C6 (counterexample).**  Two ants queued on the single path
`A-B-C-D`: in the second turn ant 1, at position 1 > 0, moves out of
room `B` into `C`, and ant 2 — processed later in the same turn —
moves into `B`.  The vacated room did become available within the
same turn, contradicting the claim (src/main.go:316 clears
`roomFull` for the vacated room immediately). -/
theorem C6_counterexample :
    getAntMovesLog [(1, ["A", "B", "C", "D"]), (2, ["A", "B", "C", "D"])] "D" =
      some [[(1, "B")], [(1, "C"), (2, "B")], [(1, "D"), (2, "C")], [(2, "D")]] := by
  rfl

set_option maxHeartbeats 2000000 in
/-- **C6 (amended).**  When an ant at position `pos > 0` moves out of a
room, `getAntMoves` clears the room's occupancy at once
(src/main.go:316), so the room IS available to ants processed later in
the same turn; it is not withheld until the next turn.  Stated for two
ants sharing one path of four distinct rooms: in turn 2 the second ant
enters the room the first ant vacated in that same turn. -/
theorem C6_amended_mid_turn_freeing (s a b e : String)
    (hsa : s ≠ a) (hsb : s ≠ b) (hse : s ≠ e) (hab : a ≠ b) (hae : a ≠ e)
    (hbe : b ≠ e) (ha0 : a ≠ "") (hb0 : b ≠ "") (he0 : e ≠ "") :
    getAntMovesLog [(1, [s, a, b, e]), (2, [s, a, b, e])] e =
      some [[(1, a)], [(1, b), (2, a)], [(1, e), (2, b)], [(2, e)]] := by
  have hsa' := Ne.symm hsa
  have hsb' := Ne.symm hsb
  have hse' := Ne.symm hse
  have hab' := Ne.symm hab
  have hae' := Ne.symm hae
  have hbe' := Ne.symm hbe
  have ha0' := Ne.symm ha0
  have hb0' := Ne.symm hb0
  have he0' := Ne.symm he0
  simp [getAntMovesLog, sortById, insertById, simFuel, simLoop, doTurn, stepAnts,
    tunGet, occMark, occFree, hsa, hsb, hse, hab, hae, hbe, ha0, hb0, he0,
    hsa', hsb', hse', hab', hae', hbe', ha0', hb0', he0']

/-- Witness for C6's amended theorem at concrete rooms. -/
theorem C6_amended_witness :
    getAntMovesLog [(1, ["S", "a", "b", "T"]), (2, ["S", "a", "b", "T"])] "T" =
      some [[(1, "a")], [(1, "b"), (2, "a")], [(1, "T"), (2, "b")], [(2, "T")]] :=
  C6_amended_mid_turn_freeing "S" "a" "b" "T"
    (by decide) (by decide) (by decide) (by decide) (by decide) (by decide)
    (by decide) (by decide) (by decide)

/-! ## C8: exit codes and error reporting -/

/-- A message that begins with `ERROR:`. -/
def beginsWithError (m : String) : Prop := ∃ rest, m = "ERROR:" ++ rest

theorem beginsWithError_concat (pre t : String) (h : beginsWithError pre) :
    beginsWithError (pre ++ t) := by
  obtain ⟨q, hq⟩ := h
  exact ⟨q ++ t, by rw [hq, String.append_assoc]⟩

/-- Every diagnostic produced by the scanner loop goes to standard
output, starts with `ERROR:`, and carries exit code 0 or 1. -/
theorem readLoop_error_shape :
    ∀ (lines : List String) (g : Graph) (sc ps pe : Bool) (f : Failure),
    readLoop lines g sc ps pe = .error f →
    beginsWithError f.msg ∧ f.chan = Chan.stdout ∧ f.exitCode ≤ 1 := by
  intro lines
  induction lines with
  | nil =>
    intro g sc ps pe f h
    simp only [readLoop] at h
    split at h
    · cases h
      exact ⟨⟨" missing start or end room", by decide⟩, rfl, by simp⟩
    · cases h
  | cons line rest ih =>
    intro g sc ps pe f h
    simp only [readLoop] at h
    split at h
    · split at h
      · exact ih _ _ _ _ _ h
      · split at h
        · exact ih _ _ _ _ _ h
        · exact ih _ _ _ _ _ h
    · split at h
      · -- ant-count line
        split at h
        · split at h
          · cases h
            exact ⟨⟨" invalid data format, number of ants must be a positive integer",
              by decide⟩, rfl, by simp⟩
          · exact ih _ _ _ _ _ h
        · cases h
          exact ⟨⟨" invalid data format, number of ants must be a positive integer",
            by decide⟩, rfl, by simp⟩
      · split at h
        · -- edge line
          split at h
          · split at h
            · cases h
              exact ⟨beginsWithError_concat _ _ ⟨" self referencing room: ", by decide⟩,
                rfl, by simp⟩
            · split at h
              · cases h
                exact ⟨beginsWithError_concat _ _
                  ⟨" invalid data format, identical connection already exists: ", by decide⟩,
                  rfl, by simp⟩
              · exact ih _ _ _ _ _ h
          · cases h
            exact ⟨beginsWithError_concat _ _ ⟨" invalid connection: ", by decide⟩,
              rfl, by simp⟩
        · -- room line
          split at h
          · split at h
            · split at h
              · exact ih _ _ _ _ _ h
              · cases h
                exact ⟨beginsWithError_concat _ _ ⟨" ", by decide⟩, rfl, by simp⟩
            · cases h
              exact ⟨⟨" invalid x coordinate", by decide⟩, rfl, by simp⟩
            · cases h
              exact ⟨⟨" invalid y coordinate", by decide⟩, rfl, by simp⟩
          · cases h
            exact ⟨beginsWithError_concat _ _ ⟨" invalid room format: ", by decide⟩,
              rfl, by simp⟩

/-- **C8 (counterexample).**  A self-loop edge `A-A` is a parse error,
but `readInput` handles it with `os.Exit(0)` (src/main.go:111) and
prints the message with `fmt.Println`, i.e. on standard output — the
claim requires a non-zero exit status and the error stream. -/
theorem C8_counterexample :
    readInputE ["1", "##start", "A 0 0", "##end", "B 1 0", "A-A"] =
      .error ⟨0, Chan.stdout, "ERROR: self referencing room: A-A"⟩ := by
  rfl

/-- **C8 (amended).**  Every parse diagnostic is human-readable and
begins with `ERROR:`, but it is printed to standard output (only the
unmodelled file-open failure goes to stderr), and the exit status is 0
or 1 depending on the case: most malformed inputs exit 1, while
self-loops and a missing source or sink exit 0; routing failures such
as `No valid path found` are printed to standard output and the
process returns normally with status 0. -/
theorem C8_amended_error_reporting :
    (∀ (lines : List String) (f : Failure),
      readInputE lines = .error f →
      beginsWithError f.msg ∧ f.chan = Chan.stdout ∧ f.exitCode ≤ 1) ∧
    mainResult ["1", "##start", "A 0 0", "##end", "B 1 0"] =
      .failure ⟨0, Chan.stdout, "ERROR: No valid path found"⟩ := by
  constructor
  · intro lines f h
    exact readLoop_error_shape lines emptyGraph false false false f h
  · rfl

/-- Witness for C8's amended theorem: the universal part applied to a
concrete rejected input (a non-numeric ant count). -/
theorem C8_witness :
    beginsWithError
      "ERROR: invalid data format, number of ants must be a positive integer" ∧
    Chan.stdout = Chan.stdout ∧ (1 : Nat) ≤ 1 := by
  have h := C8_amended_error_reporting.1 ["abc"]
    ⟨1, Chan.stdout,
      "ERROR: invalid data format, number of ants must be a positive integer"⟩ (by rfl)
  simpa using h

/-! ## C7: what the parser rejects and what it accepts -/

/-- **C7 (counterexample).**  Two inputs the claim says must be
rejected are accepted: one with two `##start` rooms (the second
overwrites the first, `AddRoom` never checks, src/main.go:43), and one
whose edge `A-C` names the unknown room `C` (the error returned by
`AddConnection` is discarded at src/main.go:121 and the edge is
silently dropped). -/
theorem C7_counterexample :
    readInputE ["3", "##start", "A 0 0", "##start", "B 1 0", "##end", "C 2 0",
        "A-B", "B-C"] =
      .ok ⟨[⟨"A", 0, 0, true, false⟩, ⟨"B", 1, 0, true, false⟩,
            ⟨"C", 2, 0, false, true⟩],
           [("A", "B"), ("B", "A"), ("B", "C"), ("C", "B")], 3, "B", "C"⟩ ∧
    readInputE ["1", "##start", "A 0 0", "##end", "B 1 0", "A-B", "A-C"] =
      .ok ⟨[⟨"A", 0, 0, true, false⟩, ⟨"B", 1, 0, false, true⟩],
           [("A", "B"), ("B", "A")], 1, "A", "B"⟩ :=
  ⟨rfl, rfl⟩

/-- The invariants that actually hold of every accepted graph. -/
structure ParsedOk (g : Graph) : Prop where
  antPos : 1 ≤ g.antCount
  noSelfLoop : ∀ a : String, (a, a) ∉ g.edges
  edgesNodup : g.edges.Nodup
  edgesSym : ∀ a b : String, (a, b) ∈ g.edges → (b, a) ∈ g.edges
  edgesKnown : ∀ ab ∈ g.edges, g.hasRoom ab.1 = true ∧ g.hasRoom ab.2 = true
  roomsNodup : (g.rooms.map Room.name).Nodup
  startMem : g.hasRoom g.startRoom = true
  endMem : g.hasRoom g.endRoom = true
  startNe : g.startRoom ≠ ""
  endNe : g.endRoom ≠ ""

/-- The part of `ParsedOk` maintained throughout the scanner loop. -/
structure ParseInv (g : Graph) (sc : Bool) : Prop where
  antPos : sc = true → 1 ≤ g.antCount
  scStart : sc = false → g.startRoom = ""
  noSelfLoop : ∀ a : String, (a, a) ∉ g.edges
  edgesNodup : g.edges.Nodup
  edgesSym : ∀ a b : String, (a, b) ∈ g.edges → (b, a) ∈ g.edges
  edgesKnown : ∀ ab ∈ g.edges, g.hasRoom ab.1 = true ∧ g.hasRoom ab.2 = true
  roomsNodup : (g.rooms.map Room.name).Nodup
  startMem : g.startRoom = "" ∨ g.hasRoom g.startRoom = true
  endMem : g.endRoom = "" ∨ g.hasRoom g.endRoom = true

theorem hasRoom_append (g : Graph) (r : Room) (n : String) (h : g.hasRoom n = true) :
    ({ g with rooms := g.rooms ++ [r] } : Graph).hasRoom n = true := by
  simp only [Graph.hasRoom, List.any_append] at h ⊢
  simp [h]

theorem hasEdge_false_notMem (g : Graph) (a b : String)
    (h : g.hasEdge a b = false) : (a, b) ∉ g.edges ∧ (b, a) ∉ g.edges := by
  simp only [Graph.hasEdge, List.any_eq_false] at h
  constructor
  · intro hm
    have := h _ hm
    simp at this
  · intro hm
    have := h _ hm
    simp at this

theorem parseInv_addConnection (g : Graph) (sc : Bool) (a b : String)
    (inv : ParseInv g sc) (hab : a ≠ b) (hdup : g.hasEdge a b = false) :
    ParseInv (g.addConnection a b) sc := by
  obtain ⟨hne1, hne2⟩ := hasEdge_false_notMem g a b hdup
  unfold Graph.addConnection
  split
  · rename_i hrooms
    rw [Bool.and_eq_true] at hrooms
    refine ⟨inv.antPos, inv.scStart, ?_, ?_, ?_, ?_, inv.roomsNodup, inv.startMem,
      inv.endMem⟩
    · intro c hc
      simp only [List.mem_append, List.mem_cons, List.mem_singleton] at hc
      rcases hc with h | h | h
      · exact inv.noSelfLoop c h
      · rw [Prod.mk.injEq] at h
        exact hab (h.1.symm.trans h.2)
      · rcases h with h | h
        · rw [Prod.mk.injEq] at h
          exact hab (h.2.symm.trans h.1)
        · cases h
    · refine List.Nodup.append inv.edgesNodup ?_ ?_
      · exact List.nodup_cons.mpr ⟨by simp [Prod.mk.injEq, hab], List.nodup_singleton _⟩
      · intro x hx hx2
        simp only [List.mem_cons, List.mem_singleton] at hx2
        rcases hx2 with h | h
        · subst h; exact hne1 hx
        · rcases h with h | h
          · subst h; exact hne2 hx
          · cases h
    · intro c d hcd
      simp only [List.mem_append, List.mem_cons, List.mem_singleton] at hcd ⊢
      rcases hcd with h | h | h
      · exact Or.inl (inv.edgesSym c d h)
      · rw [Prod.mk.injEq] at h
        right; right; left
        rw [Prod.mk.injEq]
        exact ⟨h.2, h.1⟩
      · rcases h with h | h
        · rw [Prod.mk.injEq] at h
          right; left
          rw [Prod.mk.injEq]
          exact ⟨h.2, h.1⟩
        · cases h
    · intro ab hab2
      simp only [List.mem_append, List.mem_cons, List.mem_singleton] at hab2
      rcases hab2 with h | h | h
      · exact inv.edgesKnown ab h
      · subst h; exact ⟨hrooms.1, hrooms.2⟩
      · rcases h with h | h
        · subst h; exact ⟨hrooms.2, hrooms.1⟩
        · cases h
  · exact inv

theorem parseInv_addRoom (g g2 : Graph) (sc : Bool) (name : String) (x y : Int)
    (ps pe : Bool) (inv : ParseInv g sc) (hsc : sc = true)
    (h : g.addRoom name x y ps pe = .ok g2) : ParseInv g2 sc := by
  unfold Graph.addRoom at h
  split at h
  · cases h
  · rename_i hfresh
    rw [Bool.not_eq_true] at hfresh
    cases h
    have hgrow : ∀ n, g.hasRoom n = true →
        ((g.rooms ++ [(⟨name, x, y, ps, pe⟩ : Room)]).any (fun r => r.name == n)) = true := by
      intro n hn
      rw [List.any_append]
      simp only [Graph.hasRoom] at hn
      simp [hn]
    have hself :
        ((g.rooms ++ [(⟨name, x, y, ps, pe⟩ : Room)]).any (fun r => r.name == name)) = true := by
      rw [List.any_append]
      simp
    refine ⟨fun _ => inv.antPos hsc, fun h0 => absurd hsc (by simp [h0]), inv.noSelfLoop,
      inv.edgesNodup, inv.edgesSym, ?_, ?_, ?_, ?_⟩
    · intro ab hab
      obtain ⟨h1, h2⟩ := inv.edgesKnown ab hab
      exact ⟨hgrow _ h1, hgrow _ h2⟩
    · show ((g.rooms ++ [(⟨name, x, y, ps, pe⟩ : Room)]).map Room.name).Nodup
      rw [List.map_append, List.nodup_append]
      refine ⟨inv.roomsNodup, by simp, ?_⟩
      intro n hn
      simp only [List.map_cons, List.map_nil, List.mem_singleton]
      intro hn2
      subst hn2
      have : g.hasRoom n = true := by
        simp only [Graph.hasRoom, List.any_eq_true]
        obtain ⟨r, hr, hrn⟩ := List.mem_map.mp hn
        exact ⟨r, hr, by simp [hrn]⟩
      rw [hfresh] at this
      cases this
    · show (if ps = true then name else g.startRoom) = "" ∨
        ((g.rooms ++ [(⟨name, x, y, ps, pe⟩ : Room)]).any
          (fun r => r.name == if ps = true then name else g.startRoom)) = true
      by_cases hps : ps = true
      · rw [if_pos hps]
        exact Or.inr hself
      · rw [if_neg hps]
        rcases inv.startMem with h | h
        · exact Or.inl h
        · exact Or.inr (hgrow _ h)
    · show (if pe = true then name else g.endRoom) = "" ∨
        ((g.rooms ++ [(⟨name, x, y, ps, pe⟩ : Room)]).any
          (fun r => r.name == if pe = true then name else g.endRoom)) = true
      by_cases hpe : pe = true
      · rw [if_pos hpe]
        exact Or.inr hself
      · rw [if_neg hpe]
        rcases inv.endMem with h | h
        · exact Or.inl h
        · exact Or.inr (hgrow _ h)

theorem readLoop_ok_inv :
    ∀ (lines : List String) (g : Graph) (sc ps pe : Bool) (g2 : Graph),
    ParseInv g sc → readLoop lines g sc ps pe = .ok g2 → ParsedOk g2 := by
  intro lines
  induction lines with
  | nil =>
    intro g sc ps pe g2 inv h
    simp only [readLoop] at h
    split at h
    · cases h
    · rename_i hne
      cases h
      simp only [Bool.or_eq_true, decide_eq_true_eq, not_or] at hne
      have hstart : g.startRoom ≠ "" := hne.1
      have hend : g.endRoom ≠ "" := hne.2
      have hsc : sc = true := by
        by_contra hsc
        rw [Bool.not_eq_true] at hsc
        exact hstart (inv.scStart hsc)
      exact ⟨inv.antPos hsc, inv.noSelfLoop, inv.edgesNodup, inv.edgesSym,
        inv.edgesKnown, inv.roomsNodup, inv.startMem.resolve_left hstart,
        inv.endMem.resolve_left hend, hstart, hend⟩
  | cons line rest ih =>
    intro g sc ps pe g2 inv h
    simp only [readLoop] at h
    split at h
    · split at h
      · exact ih _ _ _ _ _ inv h
      · split at h
        · exact ih _ _ _ _ _ inv h
        · exact ih _ _ _ _ _ inv h
    · split at h
      · -- ant-count line
        split at h
        · split at h
          · cases h
          · rename_i n hn hle
            have inv2 : ParseInv { g with antCount := n } true := by
              refine ⟨fun _ => ?_, fun h0 => Bool.noConfusion h0, inv.noSelfLoop,
                inv.edgesNodup, inv.edgesSym, inv.edgesKnown, inv.roomsNodup,
                inv.startMem, inv.endMem⟩
              show 1 ≤ n
              omega
            exact ih _ _ _ _ _ inv2 h
        · cases h
      · rename_i hsc2
        have hsc : sc = true := by simpa using hsc2
        split at h
        · -- edge line
          split at h
          · split at h
            · cases h
            · split at h
              · cases h
              · rename_i a b heq hab hdup
                have hdup2 : g.hasEdge a b = false := by
                  rw [Bool.not_eq_true] at hdup
                  exact hdup
                exact ih _ _ _ _ _
                  (parseInv_addConnection g sc a b inv hab hdup2) h
          · cases h
        · -- room line
          split at h
          · split at h
            · split at h
              · rename_i g3 hadd
                exact ih _ _ _ _ _
                  (parseInv_addRoom g g3 sc _ _ _ ps pe inv hsc hadd) h
              · cases h
            · cases h
            · cases h
          · cases h

/-- **C7 (amended).**  Parsing rejects duplicate rooms, duplicate
edges, self-loops, non-positive ant counts, and a missing source or
sink — every accepted graph has a positive ant count, no self-loop,
no repeated (undirected) edge, distinct room names, and known,
non-empty source and sink — but inputs with multiple sources or sinks
are accepted (the last marked room wins) and an edge naming an unknown
room is silently ignored rather than rejected. -/
theorem C7_amended_parser_invariants (lines : List String) (g : Graph)
    (h : readInputE lines = .ok g) : ParsedOk g := by
  refine readLoop_ok_inv lines emptyGraph false false false g ?_ h
  exact ⟨by simp [emptyGraph], fun _ => rfl, by simp [emptyGraph], by simp [emptyGraph],
    by simp [emptyGraph], by simp [emptyGraph], by simp [emptyGraph],
    Or.inl rfl, Or.inl rfl⟩

/-- Witness for C7's amended theorem at a concrete accepted input. -/
theorem C7_witness :
    ParsedOk ⟨[⟨"A", 0, 0, true, false⟩, ⟨"B", 1, 0, false, true⟩],
      [("A", "B"), ("B", "A")], 1, "A", "B"⟩ :=
  C7_amended_parser_invariants ["1", "##start", "A 0 0", "##end", "B 1 0", "A-B"] _ rfl

/-! ## C9: determinism — no map iteration order reaches the output -/

theorem insertById_perm (x : Nat × List String) (l : List (Nat × List String)) :
    (insertById x l).Perm (x :: l) := by
  induction l with
  | nil => simp [insertById]
  | cons y ys ih =>
    simp only [insertById]
    split
    · exact List.Perm.refl _
    · exact ((ih.cons y).trans (List.Perm.swap x y ys))

theorem sortById_perm (l : List (Nat × List String)) : (sortById l).Perm l := by
  induction l with
  | nil => simp [sortById]
  | cons x xs ih =>
    simp only [sortById]
    exact (insertById_perm x (sortById xs)).trans (ih.cons x)

theorem insertById_sorted (x : Nat × List String) (l : List (Nat × List String))
    (h : l.Pairwise (fun a b => a.1 ≤ b.1)) :
    (insertById x l).Pairwise (fun a b => a.1 ≤ b.1) := by
  induction l with
  | nil => simp [insertById]
  | cons y ys ih =>
    simp only [insertById]
    split
    · rename_i hlt
      refine List.Pairwise.cons ?_ h
      intro z hz
      rcases List.mem_cons.mp hz with hz | hz
      · subst hz; omega
      · have := (List.pairwise_cons.mp h).1 z hz
        omega
    · rename_i hge
      rw [not_lt] at hge
      have hys := (List.pairwise_cons.mp h).2
      refine List.Pairwise.cons ?_ (ih hys)
      intro z hz
      have hz2 := (insertById_perm x ys).mem_iff.mp hz
      rcases List.mem_cons.mp hz2 with hz2 | hz2
      · subst hz2; omega
      · exact (List.pairwise_cons.mp h).1 z hz2

theorem sortById_sorted (l : List (Nat × List String)) :
    (sortById l).Pairwise (fun a b => a.1 ≤ b.1) := by
  induction l with
  | nil => simp [sortById]
  | cons x xs ih => exact insertById_sorted x (sortById xs) ih

instance : IsAntisymm (Nat × List String) (fun a b => a.1 < b.1) :=
  ⟨fun _ _ h1 h2 => absurd (Nat.lt_trans h1 h2) (Nat.lt_irrefl _)⟩

theorem sortById_sorted_strict (l : List (Nat × List String))
    (hd : (l.map Prod.fst).Nodup) :
    (sortById l).Pairwise (fun a b => a.1 < b.1) := by
  have hd2 : ((sortById l).map Prod.fst).Nodup :=
    (((sortById_perm l).map Prod.fst).nodup_iff).mpr hd
  have hne : (sortById l).Pairwise (fun a b => a.1 ≠ b.1) :=
    (List.pairwise_map).mp hd2
  have hle := sortById_sorted l
  exact (hle.and hne).imp (fun h => lt_of_le_of_ne h.1 h.2)

theorem sortById_eq_of_perm (l1 l2 : List (Nat × List String))
    (hp : l1.Perm l2) (hd : (l1.map Prod.fst).Nodup) :
    sortById l1 = sortById l2 := by
  have hd2 : (l2.map Prod.fst).Nodup := ((hp.map Prod.fst).nodup_iff).mp hd
  refine List.eq_of_perm_of_sorted ?_
    (sortById_sorted_strict l1 hd) (sortById_sorted_strict l2 hd2)
  exact (sortById_perm l1).trans (hp.trans (sortById_perm l2).symm)

/-- **C9.**  The only place the Go pipeline iterates a hash map into
observable output is `getAntMoves`, which ranges over the assignment
map to build a slice (src/main.go:282) and then sorts it by ant id.
For any two iteration orders of that map — any two permutations of the
entry list — with the distinct keys a map guarantees, the movement log
and the emitted string are identical, so hash-map iteration order
never reaches the output and two runs on the same input are
byte-identical. -/
theorem C9_determinism (l1 l2 : List (Nat × List String)) (e : String)
    (hp : l1.Perm l2) (hd : (l1.map Prod.fst).Nodup) :
    getAntMovesLog l1 e = getAntMovesLog l2 e ∧
    getAntMoves l1 e = getAntMoves l2 e := by
  have hfuel : simFuel l1 = simFuel l2 := by
    unfold simFuel
    rw [(hp.map (fun ep => ep.2.length)).sum_eq]
  have hsort := sortById_eq_of_perm l1 l2 hp hd
  constructor
  · unfold getAntMovesLog
    rw [hfuel, hsort]
  · unfold getAntMoves getAntMovesLog
    rw [hfuel, hsort]

/-- Witness for C9 at two concrete iteration orders of one map. -/
theorem C9_witness :
    getAntMovesLog [(1, ["S", "a", "T"]), (2, ["S", "b", "T"])] "T" =
      getAntMovesLog [(2, ["S", "b", "T"]), (1, ["S", "a", "T"])] "T" ∧
    getAntMoves [(1, ["S", "a", "T"]), (2, ["S", "b", "T"])] "T" =
      getAntMoves [(2, ["S", "b", "T"]), (1, ["S", "a", "T"])] "T" :=
  C9_determinism _ _ "T" (List.Perm.swap _ _ _) (by decide)

/-! ## C3: every solution group is pairwise internally disjoint -/

/-- Soundness of the DFS: every path it emits is either already in the
accumulator or extends the current stack, repeats no room, and ends at
the end room. -/
theorem findAllPaths_sound (g : Graph) :
    ∀ (fuel : Nat) (current : String) (path : List String)
      (acc : List (List String)) (p : List String),
    (path ++ [current]).Nodup →
    p ∈ findAllPaths g fuel current path acc →
    p ∈ acc ∨ ∃ suf, p = path ++ current :: suf ∧ p.Nodup ∧
      p.getLast? = some g.endRoom := by
  intro fuel
  induction fuel with
  | zero =>
    intro current path acc p _ h
    exact Or.inl (by simpa [findAllPaths] using h)
  | succ n ih =>
    intro current path acc p hnd h
    simp only [findAllPaths] at h
    by_cases hcur : current = g.endRoom
    · rw [if_pos hcur] at h
      rcases List.mem_append.mp h with h | h
      · exact Or.inl h
      · rw [List.mem_singleton] at h
        subst h
        refine Or.inr ⟨[], by simp, hnd, ?_⟩
        rw [List.getLast?_concat]
        exact congrArg some hcur
    · rw [if_neg hcur] at h
      -- inner induction over the neighbour fold
      have inner : ∀ (ns : List String) (acc0 : List (List String)),
          p ∈ ns.foldl
            (fun a m => if m ∈ path ++ [current] then a
              else findAllPaths g n m (path ++ [current]) a) acc0 →
          p ∈ acc0 ∨ ∃ suf, p = path ++ current :: suf ∧ p.Nodup ∧
            p.getLast? = some g.endRoom := by
        intro ns
        induction ns with
        | nil => intro acc0 h0; exact Or.inl h0
        | cons m ms ihm =>
          intro acc0 h0
          rw [List.foldl_cons] at h0
          rcases ihm _ h0 with h1 | h1
          · by_cases hm : m ∈ path ++ [current]
            · rw [if_pos hm] at h1
              exact Or.inl h1
            · rw [if_neg hm] at h1
              have hnd2 : ((path ++ [current]) ++ [m]).Nodup := by
                rw [List.nodup_append]
                exact ⟨hnd, List.nodup_singleton m,
                  by intro x hx hx2; rw [List.mem_singleton] at hx2; subst hx2
                     exact hm hx⟩
              rcases ih m (path ++ [current]) acc0 p hnd2 h1 with h2 | h2
              · exact Or.inl h2
              · obtain ⟨suf, hs, hn, hl⟩ := h2
                refine Or.inr ⟨m :: suf, ?_, hn, hl⟩
                rw [hs, List.append_assoc, List.singleton_append]
          · exact Or.inr h1
      exact inner (neighbors g current) acc h

theorem insertByLen_perm (p : List String) (l : List (List String)) :
    (insertByLen p l).Perm (p :: l) := by
  induction l with
  | nil => simp [insertByLen]
  | cons q qs ih =>
    simp only [insertByLen]
    split
    · exact List.Perm.refl _
    · exact ((ih.cons q).trans (List.Perm.swap p q qs))

theorem sortByLen_foldl_perm :
    ∀ (l : List (List String)) (acc : List (List String)),
    (l.foldl (fun acc p => insertByLen p acc) acc).Perm (acc ++ l) := by
  intro l
  induction l with
  | nil => intro acc; simp
  | cons p ps ih =>
    intro acc
    rw [List.foldl_cons]
    refine (ih (insertByLen p acc)).trans ?_
    refine (List.Perm.append_right ps ((insertByLen_perm p acc))).trans ?_
    exact List.perm_middle.symm

theorem sortByLen_perm (l : List (List String)) : (sortByLen l).Perm l := by
  simpa using sortByLen_foldl_perm l []

/-- Every path produced by `findShortestPaths` starts at the start
room, repeats no room, and ends at the end room. -/
theorem findShortestPaths_props (g : Graph) (p : List String)
    (hp : p ∈ findShortestPaths g g.startRoom) :
    ∃ suf, p = g.startRoom :: suf ∧ p.Nodup ∧ p.getLast? = some g.endRoom := by
  have hp2 : p ∈ findAllPaths g (g.rooms.length + 1) g.startRoom [] [] :=
    (sortByLen_perm _).mem_iff.mp hp
  rcases findAllPaths_sound g _ g.startRoom [] [] p (by simp) hp2 with h | h
  · cases h
  · obtain ⟨suf, hs, hn, hl⟩ := h
    exact ⟨suf, by simpa using hs, hn, hl⟩

/-- Compatibility in propositional form. -/
theorem solutionsCompatible_spec (p q : List String) (s e : String)
    (h : solutionsCompatible p q s e = true) :
    ∀ r ∈ p, r ≠ s → r ≠ e → r ∉ q := by
  intro r hr hrs hre hq
  rw [solutionsCompatible, List.all_eq_true] at h
  have h2 := h r hr
  simp only [Bool.or_eq_true, beq_iff_eq, List.all_eq_true, Bool.not_eq_eq_eq_not,
    Bool.not_true, beq_eq_false_iff_ne] at h2
  rcases h2 with (h1 | h1) | h1
  · exact hrs h1
  · exact hre h1
  · exact (h1 r hq) rfl

/-- Members of the fold of `buildGroup` are the seed or input paths. -/
theorem buildGroup_subset (paths : List (List String)) (i : Nat)
    (p1 : List String) (s e : String) (q : List String)
    (hq : q ∈ buildGroup paths i p1 s e) : q = p1 ∨ q ∈ paths := by
  rw [buildGroup] at hq
  have inner : ∀ (l : List (Nat × List String)) (group : List (List String)),
      (∀ x ∈ group, x = p1 ∨ x ∈ paths) → (∀ ji ∈ l, ji.2 ∈ paths) →
      ∀ x ∈ l.foldl
        (fun group ji =>
          if ji.1 = i then group
          else if solutionCompatibleWithGroup ji.2 group s e then group ++ [ji.2]
          else group) group, x = p1 ∨ x ∈ paths := by
    intro l
    induction l with
    | nil => intro group hg _ x hx; exact hg x hx
    | cons ji js ihl =>
      intro group hg hl x hx
      rw [List.foldl_cons] at hx
      refine ihl _ ?_ (fun a ha => hl a (List.mem_cons_of_mem ji ha)) x hx
      intro y hy
      by_cases h1 : ji.1 = i
      · rw [if_pos h1] at hy
        exact hg y hy
      · rw [if_neg h1] at hy
        by_cases h2 : solutionCompatibleWithGroup ji.2 group s e
        · rw [if_pos h2] at hy
          rcases List.mem_append.mp hy with hy | hy
          · exact hg y hy
          · rw [List.mem_singleton] at hy
            subst hy
            exact Or.inr (hl ji (List.mem_cons_self ji js))
        · rw [if_neg h2] at hy
          exact hg y hy
  refine inner paths.enum [p1] ?_ ?_ q hq
  · intro x hx
    rw [List.mem_singleton] at hx
    exact Or.inl hx
  · intro ji hji
    exact List.snd_mem_of_mem_enum hji

theorem mem_of_getLastSome {l : List String} {a : String}
    (h : l.getLast? = some a) : a ∈ l := by
  obtain ⟨hne, heq⟩ := List.mem_getLast?_eq_getLast (Option.mem_def.mpr h)
  rw [heq]
  exact List.getLast_mem hne

/-- The fold of `buildGroup` keeps the group pairwise compatible:
every added path was checked against every earlier member. -/
theorem buildGroup_pairwise (paths : List (List String)) (i : Nat)
    (p1 : List String) (s e : String) :
    (buildGroup paths i p1 s e).Pairwise
      (fun p q => solutionsCompatible p q s e = true) := by
  rw [buildGroup]
  have inner : ∀ (l : List (Nat × List String)) (group : List (List String)),
      group.Pairwise (fun p q => solutionsCompatible p q s e = true) →
      (l.foldl
        (fun group ji =>
          if ji.1 = i then group
          else if solutionCompatibleWithGroup ji.2 group s e then group ++ [ji.2]
          else group) group).Pairwise
        (fun p q => solutionsCompatible p q s e = true) := by
    intro l
    induction l with
    | nil => intro group hg; exact hg
    | cons ji js ihl =>
      intro group hg
      rw [List.foldl_cons]
      refine ihl _ ?_
      by_cases h1 : ji.1 = i
      · rw [if_pos h1]; exact hg
      · rw [if_neg h1]
        by_cases h2 : solutionCompatibleWithGroup ji.2 group s e = true
        · rw [if_pos h2]
          rw [List.pairwise_append]
          refine ⟨hg, List.pairwise_singleton _ _, ?_⟩
          intro a ha b hb
          rw [List.mem_singleton] at hb
          subst hb
          rw [solutionCompatibleWithGroup, List.all_eq_true] at h2
          exact h2 a ha
        · rw [if_neg h2]; exact hg
  exact inner paths.enum [p1] (List.pairwise_singleton _ _)

/-- What `calculateSolutionGroups` guarantees of every emitted group:
members come from the input path list and are pairwise compatible. -/
theorem calculateSolutionGroups_spec (paths : List (List String)) (s e : String)
    (G : List (List String)) (hG : G ∈ calculateSolutionGroups paths s e) :
    (∀ q ∈ G, q ∈ paths) ∧
    G.Pairwise (fun p q => solutionsCompatible p q s e = true) := by
  rw [calculateSolutionGroups] at hG
  split at hG
  · split at hG
    · rename_i hle heq1
      rw [List.mem_singleton] at hG
      subst hG
      refine ⟨fun q hq => hq, ?_⟩
      obtain ⟨a, ha⟩ := List.length_eq_one.mp heq1
      rw [ha]
      exact List.pairwise_singleton _ _
    · cases hG
  · rw [List.mem_map] at hG
    obtain ⟨ip, hip, hbuild⟩ := hG
    subst hbuild
    constructor
    · intro q hq
      rcases buildGroup_subset paths ip.1 ip.2 s e q hq with h | h
      · subst h
        exact List.snd_mem_of_mem_enum hip
      · exact h
    · exact buildGroup_pairwise paths ip.1 ip.2 s e

/-- **C3.**  For every graph, any two distinct paths of any solution
group produced by the path finder share exactly the source and sink:
a room lies on both iff it is the start room or the end room. -/
theorem C3_groups_share_only_endpoints (g : Graph) (G : List (List String))
    (hG : G ∈ calculateSolutionGroups (findShortestPaths g g.startRoom)
            g.startRoom g.endRoom)
    (i j : Nat) (hi : i < G.length) (hj : j < G.length) (hij : i ≠ j)
    (r : String) :
    (r ∈ G[i] ∧ r ∈ G[j]) ↔ (r = g.startRoom ∨ r = g.endRoom) := by
  obtain ⟨hsub, hpw⟩ := calculateSolutionGroups_spec _ _ _ G hG
  have props : ∀ q ∈ G, ∃ suf, q = g.startRoom :: suf ∧ q.Nodup ∧
      q.getLast? = some g.endRoom :=
    fun q hq => findShortestPaths_props g q (hsub q hq)
  have hcompat : ∀ (a b : Nat) (ha : a < G.length) (hb : b < G.length), a < b →
      solutionsCompatible G[a] G[b] g.startRoom g.endRoom = true := by
    intro a b ha hb hab
    exact List.pairwise_iff_getElem.mp hpw a b ha hb hab
  constructor
  · rintro ⟨hri, hrj⟩
    by_contra hc
    push_neg at hc
    obtain ⟨hrs, hre⟩ := hc
    rcases Nat.lt_or_ge i j with hlt | hge
    · exact solutionsCompatible_spec _ _ _ _ (hcompat i j hi hj hlt) r hri hrs hre hrj
    · have hlt : j < i := by omega
      exact solutionsCompatible_spec _ _ _ _ (hcompat j i hj hi hlt) r hrj hrs hre hri
  · intro hr
    obtain ⟨sufi, hsi, _, hli⟩ := props G[i] (List.getElem_mem hi)
    obtain ⟨sufj, hsj, _, hlj⟩ := props G[j] (List.getElem_mem hj)
    rcases hr with hr | hr
    · subst hr
      exact ⟨by rw [hsi]; exact List.mem_cons_self _ _,
             by rw [hsj]; exact List.mem_cons_self _ _⟩
    · subst hr
      exact ⟨mem_of_getLastSome hli, mem_of_getLastSome hlj⟩

set_option linter.unnecessarySimpa false in
/-- Witness for C3 on a concrete two-path graph. -/
theorem C3_witness :
    ("S" ∈ (["S", "a", "T"] : List String) ∧ "S" ∈ (["S", "b", "T"] : List String)) ↔
      ("S" = "S" ∨ "S" = "T") := by
  have h := C3_groups_share_only_endpoints
    ⟨[⟨"S", 0, 0, true, false⟩, ⟨"a", 1, 0, false, false⟩,
      ⟨"b", 1, 1, false, false⟩, ⟨"T", 2, 0, false, true⟩],
     [("S", "a"), ("a", "S"), ("a", "T"), ("T", "a"),
      ("S", "b"), ("b", "S"), ("b", "T"), ("T", "b")], 4, "S", "T"⟩
    [["S", "a", "T"], ["S", "b", "T"]] (by decide) 0 1 (by decide) (by decide)
    (by decide) "S"
  simpa using h

/-! ## C4: the greedy distributor and its optimality -/

/-- The min scan returns the first index of the smallest load, with
its value: the result is the running candidate or a scanned element,
and it is a lower bound on the running value and on every scanned
element. -/
theorem scanMinAux_spec (ls : List Nat) :
    ∀ (i m v : Nat),
    ((scanMinAux ls i m v).1 = m ∧ (scanMinAux ls i m v).2 = v ∨
      ∃ j, j < ls.length ∧ (scanMinAux ls i m v).1 = i + j ∧
        (scanMinAux ls i m v).2 = ls.getD j 0) ∧
    (scanMinAux ls i m v).2 ≤ v ∧
    (∀ j, j < ls.length → (scanMinAux ls i m v).2 ≤ ls.getD j 0) := by
  induction ls with
  | nil =>
    intro i m v
    exact ⟨Or.inl ⟨rfl, rfl⟩, le_refl v, fun j hj => absurd hj (by simp)⟩
  | cons l t ih =>
    intro i m v
    simp only [scanMinAux]
    by_cases h : l < v
    · rw [if_pos h]
      obtain ⟨hcase, hle, hall⟩ := ih (i+1) i l
      refine ⟨?_, ?_, ?_⟩
      · rcases hcase with ⟨h1, h2⟩ | ⟨j, hj, h1, h2⟩
        · exact Or.inr ⟨0, by simp, by omega, by simp [h2]⟩
        · exact Or.inr ⟨j + 1, by simp only [List.length_cons]; omega, by omega,
            by simpa using h2⟩
      · omega
      · intro j hj
        match j with
        | 0 => simpa using hle
        | j' + 1 =>
          have := hall j' (by simpa using hj)
          simpa using this
    · rw [if_neg h]
      obtain ⟨hcase, hle, hall⟩ := ih (i+1) m v
      refine ⟨?_, hle, ?_⟩
      · rcases hcase with ⟨h1, h2⟩ | ⟨j, hj, h1, h2⟩
        · exact Or.inl ⟨h1, h2⟩
        · exact Or.inr ⟨j + 1, by simp only [List.length_cons]; omega, by omega,
            by simpa using h2⟩
      · intro j hj
        match j with
        | 0 =>
          simp only [List.getD_cons_zero]
          omega
        | j' + 1 =>
          have := hall j' (by simpa using hj)
          simpa using this

/-- The min scan of `distributeAnts`: the returned index is in range,
its value is the load at that index, and it is minimal. -/
theorem minIndexLoad_spec (loads : List Nat) (mi : Nat × Nat)
    (h : minIndexLoad loads = some mi) :
    mi.1 < loads.length ∧ mi.2 = loads.getD mi.1 0 ∧
    ∀ j, j < loads.length → mi.2 ≤ loads.getD j 0 := by
  match loads with
  | [] => simp [minIndexLoad] at h
  | l :: ls =>
    simp only [minIndexLoad, Option.some_inj] at h
    obtain ⟨hcase, _, hall⟩ := scanMinAux_spec (l :: ls) 0 0 l
    rw [h] at hcase hall
    refine ⟨?_, ?_, hall⟩
    · rcases hcase with ⟨h1, _⟩ | ⟨j, hj, h1, _⟩
      · simp [h1]
      · simp only [List.length_cons] at hj ⊢
        omega
    · rcases hcase with ⟨h1, h2⟩ | ⟨j, hj, h1, h2⟩
      · rw [h1, h2]
        simp
      · rw [h1, h2]
        simp

/-- Maximum of a list of naturals, 0 on the empty list. -/
def maxList : List Nat → Nat
  | [] => 0
  | x :: xs => max x (maxList xs)

theorem maxList_getD_le (l : List Nat) : ∀ i, i < l.length → l.getD i 0 ≤ maxList l := by
  induction l with
  | nil => intro i hi; simp at hi
  | cons x xs ih =>
    intro i hi
    match i with
    | 0 => simp [maxList]
    | j + 1 =>
      have := ih j (by simpa using hi)
      simp only [List.getD_cons_succ, maxList]
      omega

theorem maxList_attained (l : List Nat) (h : l ≠ []) :
    ∃ i, i < l.length ∧ l.getD i 0 = maxList l := by
  induction l with
  | nil => exact absurd rfl h
  | cons x xs ih =>
    by_cases hxs : xs = []
    · subst hxs
      exact ⟨0, by simp, by simp [maxList]⟩
    · obtain ⟨i, hi, hv⟩ := ih hxs
      by_cases hle : maxList xs ≤ x
      · exact ⟨0, by simp, by simp [maxList]; omega⟩
      · refine ⟨i + 1, by simp only [List.length_cons]; omega, ?_⟩
        simp only [List.getD_cons_succ, maxList]
        omega

theorem maxList_map_pred (l : List Nat) :
    maxList (l.map (fun x => x - 1)) = maxList l - 1 := by
  induction l with
  | nil => simp [maxList]
  | cons x xs ih =>
    simp only [List.map_cons, maxList, ih]
    omega

theorem sum_set_succ (l : List Nat) : ∀ i, i < l.length →
    (l.set i (l.getD i 0 + 1)).sum = l.sum + 1 := by
  induction l with
  | nil => intro i hi; simp at hi
  | cons x xs ih =>
    intro i hi
    match i with
    | 0 => simp [List.set]; omega
    | j + 1 =>
      have := ih j (by simpa using hi)
      simp only [List.getD_cons_succ, List.set_cons_succ, List.sum_cons, this]
      omega

theorem getD_set_self (l : List Nat) : ∀ i, i < l.length →
    ∀ v, (l.set i v).getD i 0 = v := by
  induction l with
  | nil => intro i hi; simp at hi
  | cons x xs ih =>
    intro i hi v
    match i with
    | 0 => simp
    | j + 1 =>
      have := ih j (by simpa using hi) v
      simpa using this

theorem getD_set_ne (l : List Nat) : ∀ (i j : Nat), i ≠ j →
    ∀ v, (l.set i v).getD j 0 = l.getD j 0 := by
  induction l with
  | nil => intro i j _ v; simp
  | cons x xs ih =>
    intro i j hij v
    match i, j with
    | 0, 0 => exact absurd rfl hij
    | 0, k + 1 => simp
    | m + 1, 0 => simp
    | m + 1, k + 1 =>
      have := ih m k (by omega) v
      simpa using this

theorem sum_le_sum_getD : ∀ (l1 l2 : List Nat), l1.length = l2.length →
    (∀ i, i < l1.length → l1.getD i 0 ≤ l2.getD i 0) → l1.sum ≤ l2.sum := by
  intro l1
  induction l1 with
  | nil => intro l2 hlen _; cases l2 with
    | nil => simp
    | cons y ys => simp at hlen
  | cons x xs ih =>
    intro l2 hlen hle
    cases l2 with
    | nil => simp at hlen
    | cons y ys =>
      have h0 := hle 0 (by simp)
      have hrest := ih ys (by simpa using hlen)
        (fun i hi => by simpa using hle (i+1) (by simpa using hi))
      simp only [List.getD_cons_zero] at h0
      simp only [List.sum_cons]
      omega

theorem sum_lt_sum_getD : ∀ (l1 l2 : List Nat), l1.length = l2.length →
    (∀ i, i < l1.length → l1.getD i 0 ≤ l2.getD i 0) →
    (∃ t, t < l1.length ∧ l1.getD t 0 < l2.getD t 0) → l1.sum < l2.sum := by
  intro l1
  induction l1 with
  | nil =>
    intro l2 _ _ hex
    obtain ⟨t, ht, _⟩ := hex
    simp at ht
  | cons x xs ih =>
    intro l2 hlen hle hex
    cases l2 with
    | nil => simp at hlen
    | cons y ys =>
      have h0 := hle 0 (by simp)
      simp only [List.getD_cons_zero] at h0
      obtain ⟨t, ht, hstrict⟩ := hex
      simp only [List.sum_cons]
      match t with
      | 0 =>
        simp only [List.getD_cons_zero] at hstrict
        have hrest := sum_le_sum_getD xs ys (by simpa using hlen)
          (fun i hi => by simpa using hle (i+1) (by simpa using hi))
        omega
      | s + 1 =>
        have hrest := ih ys (by simpa using hlen)
          (fun i hi => by simpa using hle (i+1) (by simpa using hi))
          ⟨s, by simpa using ht, by simpa using hstrict⟩
        omega

theorem getD_zipWith (f : Nat → Nat → Nat) :
    ∀ (l1 l2 : List Nat) (i : Nat), i < l1.length → i < l2.length →
    (List.zipWith f l1 l2).getD i 0 = f (l1.getD i 0) (l2.getD i 0) := by
  intro l1
  induction l1 with
  | nil => intro l2 i hi _; simp at hi
  | cons x xs ih =>
    intro l2 i h1 h2
    cases l2 with
    | nil => simp at h2
    | cons y ys =>
      match i with
      | 0 => simp
      | j + 1 =>
        have := ih ys j (by simpa using h1) (by simpa using h2)
        simpa using this

theorem sum_zipWith_sub : ∀ (l1 l2 : List Nat), l1.length = l2.length →
    (∀ i, i < l1.length → l2.getD i 0 ≤ l1.getD i 0) →
    (List.zipWith (fun a b => a - b) l1 l2).sum = l1.sum - l2.sum ∧
    l2.sum ≤ l1.sum := by
  intro l1
  induction l1 with
  | nil =>
    intro l2 hlen _
    cases l2 with
    | nil => simp
    | cons y ys => simp at hlen
  | cons x xs ih =>
    intro l2 hlen hle
    cases l2 with
    | nil => simp at hlen
    | cons y ys =>
      have h0 := hle 0 (by simp)
      simp only [List.getD_cons_zero] at h0
      obtain ⟨hsub, hsle⟩ := ih ys (by simpa using hlen)
        (fun i hi => by simpa using hle (i+1) (by simpa using hi))
      simp only [List.zipWith_cons_cons, List.sum_cons]
      omega

/-- Invariant of the greedy loop: the final loads dominate the initial
ones, grew by exactly one per ant, and any load that was ever
incremented exceeds every other final load by at most one (it was the
minimum when it last received an ant). -/
theorem distLoop_final_loads (paths : List (List String)) (k : Nat) :
    ∀ (ai : Nat) (loads : List Nat) (asg : List (Nat × List String))
      (r : List (Nat × List String) × List Nat),
    distLoop paths k ai loads asg = some r →
    r.2.length = loads.length ∧ r.2.sum = loads.sum + k ∧
    (∀ i, i < loads.length → loads.getD i 0 ≤ r.2.getD i 0) ∧
    (∀ i, i < loads.length → loads.getD i 0 < r.2.getD i 0 →
      ∀ j, j < loads.length → r.2.getD i 0 - 1 ≤ r.2.getD j 0) := by
  induction k with
  | zero =>
    intro ai loads asg r h
    simp only [distLoop, Option.some_inj] at h
    subst h
    exact ⟨rfl, by simp, fun i _ => le_refl _, fun i _ h2 => absurd h2 (lt_irrefl _)⟩
  | succ n ih =>
    intro ai loads asg r h
    simp only [distLoop] at h
    match hml : minIndexLoad loads with
    | none => rw [hml] at h; cases h
    | some mi =>
      rw [hml] at h
      obtain ⟨hmi, hmv, hmin⟩ := minIndexLoad_spec loads mi hml
      have hlen' : (loads.set mi.1 (loads.getD mi.1 0 + 1)).length = loads.length := by
        simp
      obtain ⟨ihlen, ihsum, ihmono, ihkey⟩ := ih _ _ _ r h
      rw [hlen'] at ihlen
      refine ⟨ihlen, ?_, ?_, ?_⟩
      · rw [ihsum, sum_set_succ loads mi.1 hmi]
        omega
      · intro i hi
        have := ihmono i (by rw [hlen']; exact hi)
        by_cases hieq : i = mi.1
        · subst hieq
          rw [getD_set_self loads mi.1 hi] at this
          omega
        · rwa [getD_set_ne loads mi.1 i (fun hc => hieq hc.symm)] at this
      · intro i hi hlt j hj
        have hmono_i := ihmono i (by rw [hlen']; exact hi)
        by_cases hcase : (loads.set mi.1 (loads.getD mi.1 0 + 1)).getD i 0 < r.2.getD i 0
        · exact ihkey i (by rw [hlen']; exact hi) hcase (j) (by rw [hlen']; exact hj)
        · have heq : (loads.set mi.1 (loads.getD mi.1 0 + 1)).getD i 0 = r.2.getD i 0 := by
            omega
          by_cases hieq : i = mi.1
          · subst hieq
            rw [getD_set_self loads mi.1 hi] at heq
            have hjmono := ihmono j (by rw [hlen']; exact hj)
            have hjge : loads.getD j 0 ≤ r.2.getD j 0 := by
              by_cases hjeq : j = mi.1
              · subst hjeq
                rw [getD_set_self loads mi.1 hj] at hjmono
                omega
              · rwa [getD_set_ne loads mi.1 j (fun hc => hjeq hc.symm)] at hjmono
            have := hmin j hj
            omega
          · rw [getD_set_ne loads mi.1 i (fun hc => hieq hc.symm)] at heq
            omega

theorem scanMinAux_map_succ (ls : List Nat) :
    ∀ (i m v : Nat), scanMinAux (ls.map (· + 1)) i m (v + 1) =
      ((scanMinAux ls i m v).1, (scanMinAux ls i m v).2 + 1) := by
  induction ls with
  | nil => intro i m v; simp [scanMinAux]
  | cons l t ih =>
    intro i m v
    simp only [List.map_cons, scanMinAux]
    by_cases h : l < v
    · rw [if_pos (by omega), if_pos h]
      exact ih (i+1) i l
    · rw [if_neg (by omega), if_neg h]
      exact ih (i+1) m v

theorem minIndexLoad_map_succ (loads : List Nat) :
    minIndexLoad (loads.map (· + 1)) =
      (minIndexLoad loads).map (fun mi => (mi.1, mi.2 + 1)) := by
  match loads with
  | [] => simp [minIndexLoad]
  | l :: ls =>
    have h := scanMinAux_map_succ (l :: ls) 0 0 l
    simp only [List.map_cons] at h
    simp only [List.map_cons, minIndexLoad]
    rw [h]
    rfl

theorem set_getD_map_succ (l : List Nat) : ∀ i, i < l.length →
    (l.map (· + 1)).set i ((l.map (· + 1)).getD i 0 + 1) =
      (l.set i (l.getD i 0 + 1)).map (· + 1) := by
  induction l with
  | nil => intro i hi; simp at hi
  | cons x xs ih =>
    intro i hi
    match i with
    | 0 => simp
    | j + 1 =>
      have := ih j (by simpa using hi)
      simp only [List.map_cons, List.getD_cons_succ, List.set_cons_succ] at this ⊢
      rw [this]

/-- The whole greedy loop is invariant under shifting every load by
one: the chosen indices, and hence the assignment, are identical. -/
theorem distLoop_map_succ (paths : List (List String)) (k : Nat) :
    ∀ (ai : Nat) (loads : List Nat) (asg : List (Nat × List String)),
    distLoop paths k ai (loads.map (· + 1)) asg =
      (distLoop paths k ai loads asg).map (fun r => (r.1, r.2.map (· + 1))) := by
  induction k with
  | zero => intro ai loads asg; simp [distLoop]
  | succ n ih =>
    intro ai loads asg
    simp only [distLoop]
    rw [minIndexLoad_map_succ]
    match hml : minIndexLoad loads with
    | none => rfl
    | some mi =>
      simp only [Option.map_some']
      have hmi := (minIndexLoad_spec loads mi hml).1
      show distLoop paths n (ai + 1)
        ((loads.map (· + 1)).set mi.1 ((loads.map (· + 1)).getD mi.1 0 + 1))
        (asg ++ [(ai, paths.getD mi.1 [])]) = _
      rw [set_getD_map_succ loads mi.1 hmi]
      exact ih _ _ _

theorem zipWith_pred_add (l1 l2 : List Nat) (h1 : ∀ x ∈ l1, 1 ≤ x) :
    List.zipWith (fun ℓ c => ℓ - 1 + c) l1 l2 =
      (List.zipWith (fun ℓ c => ℓ + c) l1 l2).map (fun x => x - 1) := by
  induction l1 generalizing l2 with
  | nil => simp
  | cons x xs ih =>
    cases l2 with
    | nil => simp
    | cons y ys =>
      simp only [List.zipWith_cons_cons, List.map_cons]
      rw [ih ys (fun a ha => h1 a (List.mem_cons_of_mem x ha))]
      have := h1 x (List.mem_cons_self x xs)
      congr 1
      omega

/-- The distributor exactly as §4.3 of the specification words it:
initial cost `len(p_i) − 1`, each ant to the path of currently
smallest cost (ties to the lower index), cost incremented by one per
assigned ant.  Defined only to compare with `distributeAnts`. -/
def specDistribute (paths : List (List String)) (ants : Int) :
    Option (List (Nat × List String)) :=
  (distLoop paths ants.toNat 1 (paths.map (fun p => p.length - 1)) []).map Prod.fst

/-- **C4.**  For every non-empty path list of non-empty paths and any
ant count: (1) `distributeAnts` computes exactly the assignment the
specification describes — greedy minimum with initial cost
`len(p_i) − 1` (the code initialises the cost to `len(p_i)`, a uniform
shift that never changes the chosen path); and (2) the final cost
vector `L` (with `L i = len(p_i) + a_i`) minimises the makespan: for
every alternative split `b` of the `N` ants over the `k` paths,
`max_i (len(p_i) − 1 + a_i) ≤ max_i (len(p_i) − 1 + b_i)`. -/
theorem C4_distributor_greedy_optimal (paths : List (List String)) (ants : Int)
    (hne : paths ≠ []) (hp1 : ∀ p ∈ paths, p ≠ []) :
    distributeAnts paths ants = specDistribute paths ants ∧
    (∀ (asg : List (Nat × List String)) (L : List Nat),
      distLoop paths ants.toNat 1 (paths.map List.length) [] = some (asg, L) →
      ∀ b : List Nat, b.length = paths.length → b.sum = ants.toNat →
      maxList (L.map (fun x => x - 1)) ≤
        maxList (List.zipWith (fun ℓ c => ℓ - 1 + c) (paths.map List.length) b)) := by
  have hlens : paths.map List.length = (paths.map (fun p => p.length - 1)).map (· + 1) := by
    rw [List.map_map]
    refine List.map_congr_left ?_
    intro p hp
    have h1 : 1 ≤ p.length := List.length_pos.mpr (hp1 p hp)
    simp only [Function.comp]
    omega
  constructor
  · unfold distributeAnts specDistribute
    rw [hlens, distLoop_map_succ]
    cases distLoop paths ants.toNat 1 (paths.map (fun p => p.length - 1)) [] <;> simp
  · intro asg L hdist b hblen hbsum
    set lens := paths.map List.length with hlensdef
    have hlenlen : lens.length = paths.length := by simp [hlensdef]
    have hlens1 : ∀ i, i < lens.length → 1 ≤ lens.getD i 0 := by
      intro i hi
      have hmem : lens.getD i 0 ∈ lens := by
        rw [List.getD_eq_getElem lens 0 hi]
        exact List.getElem_mem hi
      obtain ⟨p, hp, hpl⟩ := List.mem_map.mp (hlensdef ▸ hmem)
      rw [← hpl]
      exact List.length_pos.mpr (hp1 p hp)
    obtain ⟨hLlen, hLsum, hLmono, hLkey⟩ :=
      distLoop_final_loads paths ants.toNat 1 lens [] (asg, L) hdist
    dsimp only at hLlen hLsum hLmono hLkey
    have hk : 0 < lens.length := by
      rw [hlenlen]
      exact List.length_pos.mpr hne
    -- rewrite both sides through `maxList_map_pred`
    have hzip : List.zipWith (fun ℓ c => ℓ - 1 + c) lens b =
        (List.zipWith (fun ℓ c => ℓ + c) lens b).map (fun x => x - 1) := by
      refine zipWith_pred_add lens b ?_
      intro x hx
      obtain ⟨p, hp, hpl⟩ := List.mem_map.mp (hlensdef ▸ hx)
      rw [← hpl]
      exact List.length_pos.mpr (hp1 p hp)
    rw [hzip, maxList_map_pred, maxList_map_pred]
    refine Nat.sub_le_sub_right ?_ 1
    -- main inequality: maxList L ≤ maxList (zipWith (+) lens b)
    set Z := List.zipWith (fun ℓ c => ℓ + c) lens b with hZdef
    have hZlen : Z.length = lens.length := by
      rw [hZdef, List.length_zipWith]
      omega
    have hZget : ∀ j, j < lens.length → Z.getD j 0 = lens.getD j 0 + b.getD j 0 := by
      intro j hj
      exact getD_zipWith _ lens b j hj (by omega)
    have hLne : L ≠ [] := by
      have : 0 < L.length := by omega
      exact List.length_pos.mp this
    obtain ⟨t, ht, htv⟩ := maxList_attained L hLne
    have ht2 : t < lens.length := by omega
    have hmono_t := hLmono t ht2
    rcases Nat.lt_or_ge (lens.getD t 0) (L.getD t 0) with hstrict | hge
    · -- path t received at least one ant
      by_contra hcon
      push_neg at hcon
      have hZmax : ∀ j, j < lens.length → lens.getD j 0 + b.getD j 0 ≤ maxList L - 1 := by
        intro j hj
        have h1 : Z.getD j 0 ≤ maxList Z := maxList_getD_le Z j (by omega)
        rw [hZget j hj] at h1
        omega
      have hLlow : ∀ j, j < lens.length → maxList L - 1 ≤ L.getD j 0 := by
        intro j hj
        have := hLkey t ht2 hstrict j hj
        rw [htv] at this
        exact this
      -- pointwise: b ≤ L - lens, strict at t
      have hble : ∀ j, j < lens.length → b.getD j 0 ≤ L.getD j 0 - lens.getD j 0 := by
        intro j hj
        have h1 := hZmax j hj
        have h2 := hLlow j hj
        omega
      have hbt : b.getD t 0 < L.getD t 0 - lens.getD t 0 := by
        have h1 := hZmax t ht2
        have h2 := hlens1 t ht2
        omega
      have hA := sum_zipWith_sub L lens (by omega)
        (fun i hi => hLmono i (by omega))
      set A := List.zipWith (fun a b => a - b) L lens with hAdef
      have hAlen : A.length = lens.length := by
        rw [hAdef, List.length_zipWith]
        omega
      have hAget : ∀ j, j < lens.length → A.getD j 0 = L.getD j 0 - lens.getD j 0 := by
        intro j hj
        exact getD_zipWith _ L lens j (by omega) hj
      have hAsum : A.sum = ants.toNat := by
        rw [hA.1, hLsum]
        omega
      have hlt := sum_lt_sum_getD b A (by omega)
        (fun i hi => by
          rw [hAget i (by omega)]
          exact hble i (by omega))
        ⟨t, by omega, by
          rw [hAget t ht2]
          exact hbt⟩
      rw [hAsum, hbsum] at hlt
      omega
    · -- path t received no ant: its final load is its length
      have heq : L.getD t 0 = lens.getD t 0 := by omega
      have h1 : Z.getD t 0 ≤ maxList Z := maxList_getD_le Z t (by omega)
      rw [hZget t ht2] at h1
      rw [← htv, heq]
      omega

/-- Witness for C4 at a concrete instance: two paths of lengths 2 and
3, three ants. -/
theorem C4_witness :
    distributeAnts [["S", "T"], ["S", "a", "T"]] 3 =
      specDistribute [["S", "T"], ["S", "a", "T"]] 3 ∧
    (∀ (asg : List (Nat × List String)) (L : List Nat),
      distLoop [["S", "T"], ["S", "a", "T"]] (3 : Int).toNat 1
        ([["S", "T"], ["S", "a", "T"]].map List.length) [] = some (asg, L) →
      ∀ b : List Nat, b.length = [["S", "T"], ["S", "a", "T"]].length →
        b.sum = (3 : Int).toNat →
      maxList (L.map (fun x => x - 1)) ≤
        maxList (List.zipWith (fun ℓ c => ℓ - 1 + c)
          ([["S", "T"], ["S", "a", "T"]].map List.length) b)) :=
  C4_distributor_greedy_optimal [["S", "T"], ["S", "a", "T"]] 3
    (by decide) (by decide)

/-! ## Simulator invariants (shared by C2 and C5) -/

/-- The room an ant currently occupies. -/
def roomAt (en : Ent) : String := en.1.2.getD en.2 ""

/-- An ant strictly inside its path: past the source, not yet at the
last room.  Exactly these ants occupy a `roomFull` slot. -/
def internalEnt (en : Ent) : Prop := 0 < en.2 ∧ en.2 + 1 < en.1.2.length

/-- Static properties of a pipeline-produced path: non-empty, starts
at the source, no repeated room, ends at the sink, and no empty room
name (the parser never produces one). -/
structure PathProps (s e : String) (p : List String) : Prop where
  nonnil : p ≠ []
  headS : p.head? = some s
  nodup : p.Nodup
  lastE : p.getLast? = some e
  noBlank : "" ∉ p

/-- Two pipeline paths are either the same path (several ants queue on
it) or share only source and sink. -/
def PathsRel (s e : String) (p q : List String) : Prop :=
  p = q ∨ ∀ r, r ∈ p → r ∈ q → r = s ∨ r = e

theorem pathsRel_symm (s e : String) : Symmetric (PathsRel s e) := by
  intro p q h
  rcases h with h | h
  · exact Or.inl h.symm
  · exact Or.inr (fun r hq hp => h r hp hq)

/-- No two ants in internal positions share a room. -/
def NoCollide (en1 en2 : Ent) : Prop :=
  internalEnt en1 → internalEnt en2 → roomAt en1 ≠ roomAt en2

theorem noCollide_symm : Symmetric NoCollide := by
  intro a b h h1 h2
  exact (h h2 h1).symm

/-- The simulator state invariant: path properties, in-range
positions, pairwise path disjointness, distinct ids, collision
freedom, and the occupied set being exactly the rooms of internal
ants, without duplicates. -/
structure SimInv (s e : String) (l : List Ent) (occ : List String) : Prop where
  props : ∀ en ∈ l, PathProps s e en.1.2
  pos : ∀ en ∈ l, en.2 < en.1.2.length
  disj : (l.map (fun en => en.1.2)).Pairwise (PathsRel s e)
  ids : (l.map (fun en => en.1.1)).Nodup
  col : l.Pairwise NoCollide
  occIff : ∀ r, r ∈ occ ↔ ∃ en ∈ l, internalEnt en ∧ roomAt en = r
  occNd : occ.Nodup

theorem mem_occMark (l : List String) (x r : String) :
    r ∈ occMark l x ↔ r ∈ l ∨ r = x := by
  unfold occMark
  split
  · rename_i hx
    constructor
    · exact Or.inl
    · intro h
      rcases h with h | h
      · exact h
      · subst h; exact hx
  · simp [or_comm]

theorem occMark_nodup (l : List String) (x : String) (h : l.Nodup) :
    (occMark l x).Nodup := by
  unfold occMark
  split
  · exact h
  · exact List.nodup_cons.mpr ⟨by assumption, h⟩

theorem mem_occFree (l : List String) (x r : String) (hnd : l.Nodup) :
    r ∈ occFree l x ↔ r ∈ l ∧ r ≠ x := by
  induction l with
  | nil => simp [occFree]
  | cons y ys ih =>
    rw [List.nodup_cons] at hnd
    unfold occFree
    split
    · rename_i hyx
      subst hyx
      constructor
      · intro h
        refine ⟨List.mem_cons_of_mem y h, ?_⟩
        intro hc
        subst hc
        exact hnd.1 h
      · intro ⟨h1, h2⟩
        rcases List.mem_cons.mp h1 with h | h
        · exact absurd h.symm (by exact fun hc => h2 hc.symm)
        · exact h
    · rename_i hyx
      rw [List.mem_cons, ih hnd.2, List.mem_cons]
      constructor
      · intro h
        rcases h with h | ⟨h1, h2⟩
        · subst h
          exact ⟨Or.inl rfl, fun hc => hyx hc⟩
        · exact ⟨Or.inr h1, h2⟩
      · intro ⟨h1, h2⟩
        rcases h1 with h | h
        · exact Or.inl h
        · exact Or.inr ⟨h, h2⟩

theorem occFree_nodup (l : List String) (x : String) (h : l.Nodup) :
    (occFree l x).Nodup := by
  induction l with
  | nil => simp [occFree]
  | cons y ys ih =>
    rw [List.nodup_cons] at h
    unfold occFree
    split
    · exact h.2
    · refine List.nodup_cons.mpr ⟨?_, ih h.2⟩
      intro hc
      exact h.1 ((mem_occFree ys x y h.2).mp hc).1

theorem occFree_of_not_mem (l : List String) (x : String) (h : x ∉ l) :
    occFree l x = l := by
  induction l with
  | nil => rfl
  | cons y ys ih =>
    have h1 : y ≠ x := by
      intro hc
      rw [← hc] at h
      exact h (List.mem_cons_self y ys)
    unfold occFree
    rw [if_neg h1, ih (fun hc => h (List.mem_cons_of_mem y hc))]

/-- Destinations of one ant in a move list, in order. -/
def movesOf (id : Nat) (ms : List Move) : List String :=
  ms.filterMap (fun m => if m.1 = id then some m.2 else none)

theorem movesOf_nil (id : Nat) : movesOf id [] = [] := rfl

theorem movesOf_cons_self (id : Nat) (rm : String) (ms : List Move) :
    movesOf id ((id, rm) :: ms) = rm :: movesOf id ms := by
  simp [movesOf]

theorem movesOf_cons_ne (id id2 : Nat) (rm : String) (ms : List Move)
    (h : id2 ≠ id) : movesOf id ((id2, rm) :: ms) = movesOf id ms := by
  simp [movesOf, h]

theorem movesOf_eq_nil (id : Nat) (ms : List Move)
    (h : ∀ m ∈ ms, m.1 ≠ id) : movesOf id ms = [] := by
  induction ms with
  | nil => rfl
  | cons m ms ih =>
    rw [show m = (m.1, m.2) from rfl, movesOf_cons_ne _ _ _ _ (h m (by simp))]
    exact ih (fun m2 hm2 => h m2 (List.mem_cons_of_mem m hm2))

theorem getD_mem (p : List String) (i : Nat) (hi : i < p.length) :
    p.getD i "" ∈ p := by
  rw [List.getD_eq_getElem p "" hi]
  exact List.getElem_mem hi

theorem head_getD (p : List String) (s : String) (h : p.head? = some s) :
    p.getD 0 "" = s := by
  cases p with
  | nil => cases h
  | cons x xs =>
    simp only [List.head?_cons, Option.some_inj] at h
    simpa using h

theorem last_getD (p : List String) (e : String) (h : p.getLast? = some e) :
    p.getD (p.length - 1) "" = e := by
  obtain ⟨hne, heq⟩ := List.mem_getLast?_eq_getLast (Option.mem_def.mpr h)
  have hlt : p.length - 1 < p.length := by
    have h0 : 0 < p.length := List.length_pos.mpr hne
    omega
  rw [List.getD_eq_getElem p "" hlt, heq]
  exact (List.getLast_eq_getElem p hne).symm

theorem nodup_getD_inj (p : List String) (hnd : p.Nodup) (i j : Nat)
    (hi : i < p.length) (hj : j < p.length)
    (h : p.getD i "" = p.getD j "") : i = j := by
  rw [List.getD_eq_getElem p "" hi, List.getD_eq_getElem p "" hj] at h
  exact List.Nodup.getElem_inj_iff hnd |>.mp h

/-- Default entry for indexed access. -/
def dEnt : Ent := ((0, []), 0)

/-- An ant that has reached the end of its path
(`currentPosition < len(path)-1` fails). -/
def finishedEnt (en : Ent) : Prop := en.1.2.length ≤ en.2 + 1

instance (en : Ent) : Decidable (finishedEnt en) := by
  unfold finishedEnt
  infer_instance

/-- Remaining steps of the whole colony. -/
def sumM (l : List Ent) : Nat :=
  (l.map (fun en => en.1.2.length - 1 - en.2)).sum

/-- Structural behaviour of one pass over the ants: ids and paths are
unchanged, each position advances by at most one (only when not
finished), each move costs one remaining step, the finished counter
counts the finished ants, and each ant's moves this turn are exactly
its next room if it advanced and nothing otherwise. -/
theorem stepAnts_shape (e : String) :
    ∀ (todo : List Ent) (occ : List String) (tus : List (String × String)),
    (todo.map (fun en => en.1.1)).Nodup →
    (stepAnts e todo occ tus).ents.map Prod.fst = todo.map Prod.fst ∧
    (stepAnts e todo occ tus).ents.length = todo.length ∧
    (∀ i, i < todo.length →
      ((stepAnts e todo occ tus).ents.getD i dEnt).2 = (todo.getD i dEnt).2 ∨
      (((stepAnts e todo occ tus).ents.getD i dEnt).2 = (todo.getD i dEnt).2 + 1 ∧
        (todo.getD i dEnt).2 + 1 < (todo.getD i dEnt).1.2.length)) ∧
    sumM (stepAnts e todo occ tus).ents + (stepAnts e todo occ tus).moves.length
      = sumM todo ∧
    (stepAnts e todo occ tus).fin
      = todo.countP (fun en => decide (finishedEnt en)) ∧
    (∀ m ∈ (stepAnts e todo occ tus).moves, m.1 ∈ todo.map (fun en => en.1.1)) ∧
    (∀ i, i < todo.length →
      movesOf ((todo.getD i dEnt).1.1) (stepAnts e todo occ tus).moves =
        (if ((stepAnts e todo occ tus).ents.getD i dEnt).2 = (todo.getD i dEnt).2 + 1
         then [(todo.getD i dEnt).1.2.getD ((todo.getD i dEnt).2 + 1) ""] else [])) := by
  intro todo
  induction todo with
  | nil =>
    intro occ tus _
    refine ⟨rfl, rfl, ?_, by simp [stepAnts, sumM], by simp [stepAnts], ?_, ?_⟩
    · intro i hi; simp at hi
    · intro m hm; simp [stepAnts] at hm
    · intro i hi; simp at hi
  | cons en rest ih =>
    intro occ tus hids
    obtain ⟨⟨id, path⟩, p⟩ := en
    rw [List.map_cons, List.nodup_cons] at hids
    obtain ⟨hid0, hidrest⟩ := hids
    simp only [stepAnts]
    split
    · rename_i hguard
      split
      · -- the ant moves
        rename_i hmv
        set cur := path.getD p "" with hcur
        set nxt := path.getD (p+1) "" with hnxt
        set occ2 := occFree (if nxt ≠ e then occMark occ nxt else occ) cur with hocc2
        obtain ⟨ih1, ih2, ih3, ih4, ih5, ih6, ih7⟩ := ih occ2 ((cur, nxt) :: tus) hidrest
        set r := stepAnts e rest occ2 ((cur, nxt) :: tus) with hr
        refine ⟨?_, ?_, ?_, ?_, ?_, ?_, ?_⟩
        · simpa using ih1
        · simpa using ih2
        · intro i hi
          match i with
          | 0 => exact Or.inr ⟨by simp, by simpa using hguard⟩
          | k + 1 =>
            have := ih3 k (by simpa using hi)
            simpa using this
        · show sumM (((id, path), p+1) :: r.ents) + ((id, nxt) :: r.moves).length
            = sumM (((id, path), p) :: rest)
          simp only [sumM, List.map_cons, List.sum_cons, List.length_cons] at ih4 ⊢
          omega
        · show r.fin = _
          rw [List.countP_cons]
          have hnf : decide (finishedEnt ((id, path), p)) = false := by
            simp [finishedEnt]
            omega
          rw [hnf]
          simpa using ih5
        · intro m hm
          rcases List.mem_cons.mp hm with hm | hm
          · subst hm
            simp
          · have := ih6 m hm
            simp only [List.map_cons]
            exact List.mem_cons_of_mem _ this
        · intro i hi
          match i with
          | 0 =>
            show movesOf id ((id, nxt) :: r.moves) = _
            rw [movesOf_cons_self]
            have hempty : movesOf id r.moves = [] := by
              refine movesOf_eq_nil id r.moves ?_
              intro m hm hc
              exact hid0 (hc ▸ ih6 m hm)
            rw [hempty]
            simpa using hnxt
          | k + 1 =>
            have hk : k < rest.length := by simpa using hi
            have hkid : (rest.getD k dEnt).1.1 ∈ rest.map (fun en => en.1.1) := by
              have : rest.getD k dEnt ∈ rest := by
                rw [List.getD_eq_getElem rest dEnt hk]
                exact List.getElem_mem hk
              exact List.mem_map_of_mem _ this
            have hne : id ≠ (rest.getD k dEnt).1.1 := by
              intro hc
              exact hid0 (hc ▸ hkid)
            show movesOf ((rest.getD k dEnt).1.1) ((id, nxt) :: r.moves) = _
            rw [movesOf_cons_ne _ _ _ _ hne]
            have := ih7 k hk
            simpa using this
      · -- blocked: no move for this ant
        rename_i hmv
        obtain ⟨ih1, ih2, ih3, ih4, ih5, ih6, ih7⟩ := ih occ tus hidrest
        set r := stepAnts e rest occ tus with hr
        refine ⟨by simpa using ih1, by simpa using ih2, ?_, ?_, ?_, ?_, ?_⟩
        · intro i hi
          match i with
          | 0 => exact Or.inl (by simp)
          | k + 1 =>
            have := ih3 k (by simpa using hi)
            simpa using this
        · show sumM (((id, path), p) :: r.ents) + r.moves.length
            = sumM (((id, path), p) :: rest)
          simp only [sumM, List.map_cons, List.sum_cons] at ih4 ⊢
          omega
        · show r.fin = _
          rw [List.countP_cons]
          have hnf : decide (finishedEnt ((id, path), p)) = false := by
            simp [finishedEnt]
            omega
          rw [hnf]
          simpa using ih5
        · intro m hm
          have := ih6 m hm
          simp only [List.map_cons]
          exact List.mem_cons_of_mem _ this
        · intro i hi
          match i with
          | 0 =>
            show movesOf id r.moves = _
            have hempty : movesOf id r.moves = [] := by
              refine movesOf_eq_nil id r.moves ?_
              intro m hm hc
              exact hid0 (hc ▸ ih6 m hm)
            rw [hempty]
            have : ((((id, path), p) :: r.ents).getD 0 dEnt).2 =
                ((((id, path), p) :: rest).getD 0 dEnt).2 := by simp
            simp
          | k + 1 =>
            have hk : k < rest.length := by simpa using hi
            have := ih7 k hk
            simpa using this
    · -- finished ant
      rename_i hguard
      obtain ⟨ih1, ih2, ih3, ih4, ih5, ih6, ih7⟩ := ih occ tus hidrest
      set r := stepAnts e rest occ tus with hr
      refine ⟨by simpa using ih1, by simpa using ih2, ?_, ?_, ?_, ?_, ?_⟩
      · intro i hi
        match i with
        | 0 => exact Or.inl (by simp)
        | k + 1 =>
          have := ih3 k (by simpa using hi)
          simpa using this
      · show sumM (((id, path), p) :: r.ents) + r.moves.length
          = sumM (((id, path), p) :: rest)
        simp only [sumM, List.map_cons, List.sum_cons] at ih4 ⊢
        omega
      · show r.fin + 1 = _
        rw [List.countP_cons]
        have hnf : decide (finishedEnt ((id, path), p)) = true := by
          simp [finishedEnt]
          omega
        rw [hnf]
        simp only [if_true]
        have := ih5
        omega
      · intro m hm
        have := ih6 m hm
        simp only [List.map_cons]
        exact List.mem_cons_of_mem _ this
      · intro i hi
        match i with
        | 0 =>
          show movesOf id r.moves = _
          have hempty : movesOf id r.moves = [] := by
            refine movesOf_eq_nil id r.moves ?_
            intro m hm hc
            exact hid0 (hc ▸ ih6 m hm)
          rw [hempty]
          simp
        | k + 1 =>
          have hk : k < rest.length := by simpa using hi
          have := ih7 k hk
          simpa using this

theorem pathProps_getD_ne_s (s e : String) (p : List String)
    (hp : PathProps s e p) (i : Nat) (h0 : 0 < i) (hi : i < p.length) :
    p.getD i "" ≠ s := by
  intro hc
  have h00 : (0 : Nat) < p.length := by omega
  have hs : p.getD 0 "" = s := head_getD p s hp.headS
  have := nodup_getD_inj p hp.nodup i 0 hi h00 (by rw [hc, hs])
  omega

theorem pathProps_getD_ne_e (s e : String) (p : List String)
    (hp : PathProps s e p) (i : Nat) (hi : i + 1 < p.length) :
    p.getD i "" ≠ e := by
  intro hc
  have hl : p.length - 1 < p.length := by omega
  have he : p.getD (p.length - 1) "" = e := last_getD p e hp.lastE
  have := nodup_getD_inj p hp.nodup i (p.length - 1) (by omega) hl (by rw [hc, he])
  omega

theorem pathProps_getD_eq_e (s e : String) (p : List String)
    (hp : PathProps s e p) (i : Nat) (hi : i < p.length) :
    p.getD i "" = e ↔ i = p.length - 1 := by
  constructor
  · intro hc
    by_contra hne
    exact pathProps_getD_ne_e s e p hp i (by omega) hc
  · intro hc
    subst hc
    exact last_getD p e hp.lastE

theorem pathProps_getD_ne_blank (s e : String) (p : List String)
    (hp : PathProps s e p) (i : Nat) (hi : i < p.length) :
    p.getD i "" ≠ "" := by
  intro hc
  exact hp.noBlank (hc ▸ getD_mem p i hi)

/-- Nothing in the occupied set is the source or the sink. -/
theorem occ_mem_ne (s e : String) (l : List Ent) (occ : List String)
    (inv : SimInv s e l occ) : ∀ r ∈ occ, r ≠ s ∧ r ≠ e := by
  intro r hr
  obtain ⟨en, hen, hint, hroom⟩ := (inv.occIff r).mp hr
  have hp := inv.props en hen
  constructor
  · rw [← hroom]
    exact pathProps_getD_ne_s s e en.1.2 hp en.2 hint.1 (by have := hint.2; omega)
  · rw [← hroom]
    exact pathProps_getD_ne_e s e en.1.2 hp en.2 hint.2

/-- If a pass makes no move at all, the state is untouched and every
unfinished ant was blocked by the occupied set or the tunnel map. -/
theorem stepAnts_stuck (e : String) :
    ∀ (todo : List Ent) (occ : List String) (tus : List (String × String)),
    (stepAnts e todo occ tus).moves = [] →
    (stepAnts e todo occ tus).ents = todo ∧
    (stepAnts e todo occ tus).occ = occ ∧
    ∀ en ∈ todo, ¬finishedEnt en →
      (en.1.2.getD (en.2 + 1) "" ∈ occ ∨
        tunGet tus (en.1.2.getD en.2 "") = en.1.2.getD (en.2 + 1) "") := by
  intro todo
  induction todo with
  | nil =>
    intro occ tus _
    exact ⟨rfl, rfl, fun en hen => absurd hen (by simp)⟩
  | cons en rest ih =>
    intro occ tus hmoves
    obtain ⟨⟨id, path⟩, p⟩ := en
    by_cases hguard : p + 1 < path.length
    · by_cases hmv : path.getD (p+1) "" ∉ occ ∧
        tunGet tus (path.getD p "") ≠ path.getD (p+1) ""
      · exfalso
        simp only [stepAnts, if_pos hguard, if_pos hmv] at hmoves
        cases hmoves
      · simp only [stepAnts, if_pos hguard, if_neg hmv] at hmoves ⊢
        obtain ⟨h1, h2, h3⟩ := ih occ tus hmoves
        refine ⟨by rw [h1], h2, ?_⟩
        intro en2 hen2 hnf
        rcases List.mem_cons.mp hen2 with h | h
        · subst h
          rw [not_and_or, not_not, not_not] at hmv
          exact hmv
        · exact h3 en2 h hnf
    · simp only [stepAnts, if_neg hguard] at hmoves ⊢
      obtain ⟨h1, h2, h3⟩ := ih occ tus hmoves
      refine ⟨by rw [h1], h2, ?_⟩
      intro en2 hen2 hnf
      rcases List.mem_cons.mp hen2 with h | h
      · subst h
        exfalso
        exact hnf (by show path.length ≤ p + 1; omega)
      · exact h3 en2 h hnf


/-- The key state-transition lemma: when one ant moves from `cur` to
`nxt` (next room unoccupied), the full mixed state — processed ants,
the mover at its new position, unprocessed ants — still satisfies the
simulator invariant with the updated occupied set. -/
theorem simInv_move (s e : String) (done rest : List Ent) (id p : Nat)
    (path : List String) (occ : List String)
    (inv : SimInv s e (done ++ ((id, path), p) :: rest) occ)
    (hguard : p + 1 < path.length)
    (hnotocc : path.getD (p+1) "" ∉ occ) :
    SimInv s e (done ++ ((id, path), p + 1) :: rest)
      (occFree (if path.getD (p+1) "" ≠ e then occMark occ (path.getD (p+1) "")
        else occ) (path.getD p "")) := by
  set en : Ent := ((id, path), p) with hen
  set en2 : Ent := ((id, path), p + 1) with hen2
  set cur := path.getD p "" with hcur
  set nxt := path.getD (p+1) "" with hnxt
  have henmem : en ∈ done ++ en :: rest := by
    rw [List.mem_append]
    exact Or.inr (List.mem_cons_self _ _)
  have hp : PathProps s e path := inv.props en henmem
  have hcurnxt : cur ≠ nxt := by
    rw [hcur, hnxt]
    intro hc
    have := nodup_getD_inj path hp.nodup p (p+1) (by omega) hguard hc
    omega
  have hmemtrans : ∀ x, x ∈ done ++ en2 :: rest → x = en2 ∨ x ∈ done ++ en :: rest := by
    intro x hx
    rcases List.mem_append.mp hx with hx | hx
    · exact Or.inr (List.mem_append.mpr (Or.inl hx))
    · rcases List.mem_cons.mp hx with hx | hx
      · exact Or.inl hx
      · exact Or.inr (List.mem_append.mpr (Or.inr (List.mem_cons_of_mem _ hx)))
  have hocc_ne := occ_mem_ne s e (done ++ en :: rest) occ inv
  have hother_nxt : ∀ x, x ∈ done ++ en :: rest → internalEnt x → roomAt x ≠ nxt := by
    intro x hx hint hc
    exact hnotocc ((inv.occIff nxt).mpr ⟨x, hx, hint, hc⟩)
  have hnxt_e : nxt = e ↔ p + 1 = path.length - 1 := by
    rw [hnxt]
    exact pathProps_getD_eq_e s e path hp (p+1) hguard
  have hint2 : internalEnt en2 ↔ nxt ≠ e := by
    have h1 : internalEnt en2 ↔ (0 < p + 1 ∧ p + 1 + 1 < path.length) := Iff.rfl
    rw [h1, ne_eq, hnxt_e]
    omega
  have hroom2 : roomAt en2 = nxt := rfl
  have hroom1 : roomAt en = cur := rfl
  have hcol_pairs : ∀ x, x ∈ done ∨ x ∈ rest → NoCollide en x ∧ NoCollide x en := by
    intro x hx
    have hpair := List.pairwise_append.mp inv.col
    rcases hx with hx | hx
    · have h1 := hpair.2.2 x hx en (List.mem_cons_self _ _)
      exact ⟨noCollide_symm h1, h1⟩
    · have h1 := (List.pairwise_cons.mp hpair.2.1).1 x hx
      exact ⟨h1, noCollide_symm h1⟩
  constructor
  · intro x hx
    rcases hmemtrans x hx with hx2 | hx2
    · rw [hx2]
      exact hp
    · exact inv.props x hx2
  · intro x hx
    rcases hmemtrans x hx with hx2 | hx2
    · rw [hx2]
      exact hguard
    · exact inv.pos x hx2
  · have hmapeq : (done ++ en2 :: rest).map (fun x => x.1.2) =
        (done ++ en :: rest).map (fun x => x.1.2) := by
      simp [hen, hen2]
    rw [hmapeq]
    exact inv.disj
  · have hmapeq : (done ++ en2 :: rest).map (fun x => x.1.1) =
        (done ++ en :: rest).map (fun x => x.1.1) := by
      simp [hen, hen2]
    rw [hmapeq]
    exact inv.ids
  · have hpair := List.pairwise_append.mp inv.col
    rw [List.pairwise_append]
    refine ⟨hpair.1, ?_, ?_⟩
    · rw [List.pairwise_cons]
      refine ⟨?_, (List.pairwise_cons.mp hpair.2.1).2⟩
      intro b hb hint2b hintb hc
      exact hother_nxt b
        (List.mem_append.mpr (Or.inr (List.mem_cons_of_mem _ hb)))
        hintb (hc.symm.trans hroom2)
    · intro a ha b hb
      rcases List.mem_cons.mp hb with hb | hb
      · rw [hb]
        intro hinta hint2b hc
        exact hother_nxt a (List.mem_append.mpr (Or.inl ha)) hinta
          (hc.trans hroom2)
      · exact hpair.2.2 a ha b (List.mem_cons_of_mem _ hb)
  · intro r
    have hnd1 : (if nxt ≠ e then occMark occ nxt else occ).Nodup := by
      split
      · exact occMark_nodup occ nxt inv.occNd
      · exact inv.occNd
    rw [mem_occFree _ _ _ hnd1]
    have hmark : r ∈ (if nxt ≠ e then occMark occ nxt else occ) ↔
        r ∈ occ ∨ (nxt ≠ e ∧ r = nxt) := by
      split
      · rename_i hne
        rw [mem_occMark]
        constructor
        · intro h
          rcases h with h | h
          · exact Or.inl h
          · exact Or.inr ⟨hne, h⟩
        · intro h
          rcases h with h | h
          · exact Or.inl h
          · exact Or.inr h.2
      · rename_i hne
        rw [not_not] at hne
        constructor
        · exact Or.inl
        · intro h
          rcases h with h | h
          · exact h
          · exact absurd hne h.1
    rw [hmark, inv.occIff r]
    constructor
    · rintro ⟨h1, hrcur⟩
      rcases h1 with ⟨x, hx, hint, hroom⟩ | ⟨hne, hrn⟩
      · rcases List.mem_append.mp hx with hxd | hxc
        · exact ⟨x, List.mem_append.mpr (Or.inl hxd), hint, hroom⟩
        · rcases List.mem_cons.mp hxc with hxe | hxr
          · rw [hxe, hroom1] at hroom
            exact absurd hroom.symm hrcur
          · exact ⟨x, List.mem_append.mpr (Or.inr (List.mem_cons_of_mem _ hxr)),
              hint, hroom⟩
      · exact ⟨en2, List.mem_append.mpr (Or.inr (List.mem_cons_self _ _)),
          hint2.mpr hne, by rw [hrn]; exact hroom2⟩
    · rintro ⟨x, hx, hint, hroom⟩
      have hside : x = en2 ∨ (x ∈ done ∨ x ∈ rest) := by
        rcases List.mem_append.mp hx with h | h
        · exact Or.inr (Or.inl h)
        · rcases List.mem_cons.mp h with h | h
          · exact Or.inl h
          · exact Or.inr (Or.inr h)
      rcases hside with hxe | hxor
      · rw [hxe] at hint hroom
        rw [hroom2] at hroom
        exact ⟨Or.inr ⟨hint2.mp hint, hroom.symm⟩,
          fun hc => hcurnxt (hroom.trans hc).symm⟩
      · have hxold : x ∈ done ++ en :: rest := by
          rcases hxor with h | h
          · exact List.mem_append.mpr (Or.inl h)
          · exact List.mem_append.mpr (Or.inr (List.mem_cons_of_mem _ h))
        have hrocc : r ∈ occ := (inv.occIff r).mpr ⟨x, hxold, hint, hroom⟩
        refine ⟨Or.inl ⟨x, hxold, hint, hroom⟩, ?_⟩
        intro hc
        by_cases hpz : p = 0
        · have hcs : cur = s := by
            rw [hcur, hpz]
            exact head_getD path s hp.headS
          exact (hocc_ne r hrocc).1 (hc.trans hcs)
        · have hinte : internalEnt en := by
            rw [hen]
            exact ⟨Nat.pos_of_ne_zero hpz, hguard⟩
          exact (hcol_pairs x hxor).2 hint hinte
            (hroom.trans (hc.trans hroom1.symm))
  · refine occFree_nodup _ _ ?_
    split
    · exact occMark_nodup occ nxt inv.occNd
    · exact inv.occNd

/-- One full pass over the ant list preserves the simulator invariant,
with already-processed ants carried in front. -/
theorem stepAnts_inv (s e : String) :
    ∀ (todo done : List Ent) (occ : List String) (tus : List (String × String)),
    SimInv s e (done ++ todo) occ →
    SimInv s e (done ++ (stepAnts e todo occ tus).ents)
      (stepAnts e todo occ tus).occ := by
  intro todo
  induction todo with
  | nil =>
    intro done occ tus inv
    exact inv
  | cons en rest ih =>
    intro done occ tus inv
    obtain ⟨⟨id, path⟩, p⟩ := en
    by_cases hguard : p + 1 < path.length
    · by_cases hmv : path.getD (p+1) "" ∉ occ ∧
        tunGet tus (path.getD p "") ≠ path.getD (p+1) ""
      · simp only [stepAnts, if_pos hguard, if_pos hmv]
        have hmove := simInv_move s e done rest id p path occ inv hguard hmv.1
        have hres := ih (done ++ [((id, path), p + 1)])
          (occFree (if path.getD (p+1) "" ≠ e then
            occMark occ (path.getD (p+1) "") else occ) (path.getD p ""))
          ((path.getD p "", path.getD (p+1) "") :: tus)
          (by rw [List.append_assoc, List.singleton_append]; exact hmove)
        rw [List.append_assoc, List.singleton_append] at hres
        exact hres
      · simp only [stepAnts, if_pos hguard, if_neg hmv]
        have hres := ih (done ++ [((id, path), p)]) occ tus
          (by rw [List.append_assoc, List.singleton_append]; exact inv)
        rw [List.append_assoc, List.singleton_append] at hres
        exact hres
    · simp only [stepAnts, if_neg hguard]
      have hres := ih (done ++ [((id, path), p)]) occ tus
        (by rw [List.append_assoc, List.singleton_append]; exact inv)
      rw [List.append_assoc, List.singleton_append] at hres
      exact hres

/-- A turn preserves the simulator invariant. -/
theorem doTurn_inv (s e : String) (ents : List Ent) (occ : List String)
    (inv : SimInv s e ents occ) :
    SimInv s e (doTurn e ents occ).ents (doTurn e ents occ).occ :=
  stepAnts_inv s e ents [] occ [] inv

theorem exists_max_snd : ∀ (l : List Ent), l ≠ [] →
    ∃ u ∈ l, ∀ v ∈ l, v.2 ≤ u.2 := by
  intro l
  induction l with
  | nil => intro h; exact absurd rfl h
  | cons a rest ih =>
    intro _
    by_cases hr : rest = []
    · subst hr
      refine ⟨a, List.mem_cons_self _ _, ?_⟩
      intro v hv
      rcases List.mem_cons.mp hv with h | h
      · subst h; exact Nat.le_refl _
      · cases h
    · obtain ⟨u, hu, hmax⟩ := ih hr
      by_cases hcmp : a.2 ≤ u.2
      · refine ⟨u, List.mem_cons_of_mem _ hu, ?_⟩
        intro v hv
        rcases List.mem_cons.mp hv with h | h
        · subst h; exact hcmp
        · exact hmax v h
      · refine ⟨a, List.mem_cons_self _ _, ?_⟩
        intro v hv
        rcases List.mem_cons.mp hv with h | h
        · subst h; exact Nat.le_refl _
        · exact Nat.le_trans (hmax v h) (Nat.le_of_not_le hcmp)

/-- Progress: under the invariant, a turn in which some ant is not yet
finished produces at least one move (so the loop of `getAntMoves`
cannot stall on a pipeline-produced assignment). -/
theorem doTurn_progress (s e : String) (ents : List Ent) (occ : List String)
    (inv : SimInv s e ents occ)
    (hunf : ∃ en ∈ ents, ¬finishedEnt en) :
    (doTurn e ents occ).moves ≠ [] := by
  intro hmoves
  obtain ⟨_, _, hblocked⟩ := stepAnts_stuck e ents occ [] hmoves
  have hUne : ents.filter (fun en => !(decide (finishedEnt en))) ≠ [] := by
    obtain ⟨en, hen, hnf⟩ := hunf
    intro hc
    have hmem : en ∈ ents.filter (fun en => !(decide (finishedEnt en))) :=
      List.mem_filter.mpr ⟨hen, by simpa using hnf⟩
    rw [hc] at hmem
    cases hmem
  obtain ⟨u, huU, humax⟩ := exists_max_snd _ hUne
  have huE : u ∈ ents := (List.mem_filter.mp huU).1
  have hunfu : ¬finishedEnt u := by
    have h2 := (List.mem_filter.mp huU).2
    simpa using h2
  obtain ⟨⟨id, path⟩, p⟩ := u
  have hpu : PathProps s e path := inv.props _ huE
  have hpos : p < path.length := inv.pos _ huE
  have hguard : p + 1 < path.length := by
    have h2 : ¬(path.length ≤ p + 1) := hunfu
    omega
  have hb := hblocked ((id, path), p) huE hunfu
  have hnxtne : path.getD (p+1) "" ≠ "" :=
    pathProps_getD_ne_blank s e path hpu (p+1) hguard
  have hnocc : path.getD (p+1) "" ∈ occ := by
    rcases hb with h | h
    · exact h
    · have h2 : tunGet [] (path.getD p "") = path.getD (p+1) "" := h
      exact absurd h2.symm hnxtne
  obtain ⟨x, hxE, hxint, hxroom⟩ := (inv.occIff _).mp hnocc
  obtain ⟨hxi1, hxi2⟩ := hxint
  by_cases hxu : x = ((id, path), p)
  · rw [hxu] at hxroom
    have hroomx : path.getD p "" = path.getD (p+1) "" := hxroom
    have := nodup_getD_inj path hpu.nodup p (p+1) hpos hguard hroomx
    omega
  · have hrel : PathsRel s e path x.1.2 := by
      by_cases hpeq : path = x.1.2
      · exact Or.inl hpeq
      · exact List.Pairwise.forall (pathsRel_symm s e) inv.disj
          (List.mem_map_of_mem _ huE) (List.mem_map_of_mem _ hxE) hpeq
    rcases hrel with heq | hdisj
    · have hxlen : x.2 < x.1.2.length := inv.pos x hxE
      have hxlen2 : x.2 < path.length := by rw [heq]; exact hxlen
      have hxroom2 : x.1.2.getD x.2 "" = path.getD (p+1) "" := hxroom
      rw [← heq] at hxroom2
      have hxposeq : x.2 = p + 1 :=
        nodup_getD_inj path hpu.nodup x.2 (p+1) hxlen2 hguard hxroom2
      have hxunf : ¬finishedEnt x := by
        intro hc
        have hc2 : x.1.2.length ≤ x.2 + 1 := hc
        omega
      have hxU : x ∈ ents.filter (fun en => !(decide (finishedEnt en))) :=
        List.mem_filter.mpr ⟨hxE, by simpa using hxunf⟩
      have hle : x.2 ≤ p := humax x hxU
      omega
    · have hn1 : path.getD (p+1) "" ∈ path := getD_mem path (p+1) hguard
      have hn2 : path.getD (p+1) "" ∈ x.1.2 := by
        rw [← hxroom]
        exact getD_mem x.1.2 x.2 (inv.pos x hxE)
      rcases hdisj _ hn1 hn2 with hs | he2
      · exact pathProps_getD_ne_s s e path hpu (p+1) (by omega) hguard hs
      · have hne := pathProps_getD_ne_e s e x.1.2 (inv.props x hxE) x.2 hxi2
        exact hne (hxroom.trans he2)

theorem movesOf_append (id : Nat) (a b : List Move) :
    movesOf id (a ++ b) = movesOf id a ++ movesOf id b :=
  List.filterMap_append a b _

theorem movesOf_mem (id : Nat) (ms : List Move) (m : Move)
    (hm : m ∈ ms) (hid : m.1 = id) : m.2 ∈ movesOf id ms := by
  rw [movesOf, List.mem_filterMap]
  exact ⟨m, hm, by rw [if_pos hid]⟩

theorem map_fst_getD_eq (l1 l2 : List Ent)
    (h : l1.map Prod.fst = l2.map Prod.fst) (hlen : l1.length = l2.length)
    (k : Nat) (hk : k < l2.length) :
    (l1.getD k dEnt).1 = (l2.getD k dEnt).1 := by
  have hk1 : k < l1.length := by omega
  rw [List.getD_eq_getElem l1 dEnt hk1, List.getD_eq_getElem l2 dEnt hk]
  have hb1 : k < (l1.map Prod.fst).length := by simpa using hk1
  have hb2 : k < (l2.map Prod.fst).length := by simpa using hk
  have h1 : (l1.map Prod.fst)[k] = (l2.map Prod.fst)[k] := by
    congr 1
  rw [List.getElem_map, List.getElem_map] at h1
  exact h1

theorem pairwise_of_mem_rel {α : Type} {R : α → α → Prop} :
    ∀ (l : List α), (∀ a ∈ l, ∀ b ∈ l, R a b) → l.Pairwise R := by
  intro l
  induction l with
  | nil => intro _; exact List.Pairwise.nil
  | cons a t ih =>
    intro h
    refine List.Pairwise.cons ?_ (ih ?_)
    · intro b hb
      exact h a (List.mem_cons_self _ _) b (List.mem_cons_of_mem _ hb)
    · intro x hx y hy
      exact h x (List.mem_cons_of_mem _ hx) y (List.mem_cons_of_mem _ hy)

/-- A turn makes no move exactly when every ant is already finished:
the loop of `getAntMoves` can only go idle once all ants are done. -/
theorem doTurn_stall_iff (s e : String) (ents : List Ent) (occ : List String)
    (inv : SimInv s e ents occ) :
    (doTurn e ents occ).moves = [] ↔ ∀ en ∈ ents, finishedEnt en := by
  constructor
  · intro h
    by_contra hc
    push_neg at hc
    exact doTurn_progress s e ents occ inv hc h
  · intro hall
    obtain ⟨sh1, sh2, sh3, sh4, sh5, sh6, sh7⟩ := stepAnts_shape e ents occ [] inv.ids
    cases hmq : (stepAnts e ents occ []).moves with
    | nil => exact hmq
    | cons m ms =>
      exfalso
      have hmm : m ∈ (stepAnts e ents occ []).moves := by
        rw [hmq]
        exact List.mem_cons_self _ _
      have hid := sh6 m hmm
      obtain ⟨en2, hen2, hideq⟩ := List.mem_map.mp hid
      obtain ⟨k2, hk2, hk2eq⟩ := List.getElem_of_mem hen2
      have h7 := sh7 k2 hk2
      have h3 := sh3 k2 hk2
      have hfin2 : finishedEnt (ents.getD k2 dEnt) := by
        apply hall
        rw [List.getD_eq_getElem ents dEnt hk2]
        exact List.getElem_mem hk2
      have hflen : (ents.getD k2 dEnt).1.2.length ≤ (ents.getD k2 dEnt).2 + 1 := hfin2
      rcases h3 with h3 | h3
      · rw [if_neg (by omega)] at h7
        have hmem2 : m.2 ∈ movesOf ((ents.getD k2 dEnt).1.1)
            (stepAnts e ents occ []).moves := by
          apply movesOf_mem _ _ _ hmm
          rw [List.getD_eq_getElem ents dEnt hk2, hk2eq]
          exact hideq.symm
        rw [h7] at hmem2
        cases hmem2
      · omega

/-- A stalled, unfinished state loops forever: the recursion returns
`none` for every fuel value. -/
theorem simLoop_stuck_none (e : String) (ents : List Ent) (occ : List String)
    (hstall : (doTurn e ents occ).moves = [])
    (hfin : (doTurn e ents occ).fin ≠ ents.length) :
    ∀ (fuel : Nat) (acc : List (List Move)), simLoop e fuel ents occ acc = none := by
  intro fuel
  obtain ⟨he1, he2, _⟩ := stepAnts_stuck e ents occ [] hstall
  induction fuel with
  | zero => intro acc; rfl
  | succ n ih =>
    intro acc
    simp only [simLoop, doTurn] at hstall hfin ⊢
    rw [hstall, if_neg hfin, he1, he2]
    simp only [List.isEmpty_nil, if_true]
    exact ih acc

/-- Fuel one above the remaining work suffices: under the invariant the
turn loop always terminates (each turn with an unfinished ant makes at
least one move, and every move consumes one remaining step). -/
theorem simLoop_terminates (s e : String) :
    ∀ (fuel : Nat) (ents : List Ent) (occ : List String)
      (acc : List (List Move)),
    SimInv s e ents occ → sumM ents < fuel →
    (simLoop e fuel ents occ acc).isSome = true := by
  intro fuel
  induction fuel with
  | zero =>
    intro ents occ acc _ h
    omega
  | succ n ih =>
    intro ents occ acc inv hfuel
    simp only [simLoop, doTurn]
    split
    · simp
    · rename_i hfin
      apply ih _ _ _ (doTurn_inv s e ents occ inv)
      obtain ⟨sh1, sh2, sh3, sh4, sh5, sh6, sh7⟩ := stepAnts_shape e ents occ [] inv.ids
      have hex : ∃ en ∈ ents, ¬finishedEnt en := by
        by_contra hc
        push_neg at hc
        apply hfin
        rw [sh5, List.countP_eq_length]
        intro a ha
        simpa using hc a ha
      have hmoves : (stepAnts e ents occ []).moves ≠ [] :=
        doTurn_progress s e ents occ inv hex
      have hlen : 0 < (stepAnts e ents occ []).moves.length := by
        cases hmq : (stepAnts e ents occ []).moves with
        | nil => exact absurd hmq hmoves
        | cons a l => simp
      show sumM (stepAnts e ents occ []).ents < n
      omega

/-- Every emitted turn line is non-empty (the loop only appends the
turn's moves when at least one ant moved). -/
theorem simLoop_no_empty (e : String) :
    ∀ (fuel : Nat) (ents : List Ent) (occ : List String)
      (acc log : List (List Move)),
    (∀ t ∈ acc, t ≠ []) →
    simLoop e fuel ents occ acc = some log →
    ∀ t ∈ log, t ≠ [] := by
  intro fuel
  induction fuel with
  | zero =>
    intro ents occ acc log _ h
    cases h
  | succ n ih =>
    intro ents occ acc log hacc hrun
    simp only [simLoop] at hrun
    split at hrun
    · rename_i hfin
      rw [Option.some_inj] at hrun
      subst hrun
      split
      · exact hacc
      · rename_i hne
        intro t ht
        rcases List.mem_append.mp ht with ht | ht
        · exact hacc t ht
        · rw [List.mem_singleton] at ht
          subst ht
          intro hc
          rw [hc] at hne
          exact hne rfl
    · apply ih _ _ _ _ ?_ hrun
      split
      · exact hacc
      · rename_i hne
        intro t ht
        rcases List.mem_append.mp ht with ht | ht
        · exact hacc t ht
        · rw [List.mem_singleton] at ht
          subst ht
          intro hc
          rw [hc] at hne
          exact hne rfl

/-- The state after `n` turns of the loop. -/
def iterTurns (e : String) : Nat → List Ent → List String → List Ent × List String
  | 0, ents, occ => (ents, occ)
  | n+1, ents, occ => iterTurns e n (doTurn e ents occ).ents (doTurn e ents occ).occ

theorem iterTurns_inv (s e : String) :
    ∀ (n : Nat) (ents : List Ent) (occ : List String),
    SimInv s e ents occ →
    SimInv s e (iterTurns e n ents occ).1 (iterTurns e n ents occ).2 := by
  intro n
  induction n with
  | zero => intro ents occ inv; exact inv
  | succ k ih =>
    intro ents occ inv
    exact ih _ _ (doTurn_inv s e ents occ inv)

/-- Under the invariant, two distinct ants can share a room only if it
is the source or the sink. -/
theorem simInv_capacity (s e : String) (ents : List Ent) (occ : List String)
    (inv : SimInv s e ents occ) (i j : Nat)
    (hi : i < ents.length) (hj : j < ents.length) (hij : i ≠ j)
    (hroom : roomAt (ents.getD i dEnt) = roomAt (ents.getD j dEnt)) :
    roomAt (ents.getD i dEnt) = s ∨ roomAt (ents.getD i dEnt) = e := by
  have hmemi : ents.getD i dEnt ∈ ents := by
    rw [List.getD_eq_getElem ents dEnt hi]
    exact List.getElem_mem hi
  have hmemj : ents.getD j dEnt ∈ ents := by
    rw [List.getD_eq_getElem ents dEnt hj]
    exact List.getElem_mem hj
  have hedge : ∀ en ∈ ents, ¬internalEnt en → roomAt en = s ∨ roomAt en = e := by
    intro en hen hni
    have hprops := inv.props en hen
    have hpos := inv.pos en hen
    rw [internalEnt, not_and_or] at hni
    rcases hni with h | h
    · have hz : en.2 = 0 := by omega
      left
      rw [roomAt, hz]
      exact head_getD en.1.2 s hprops.headS
    · have hz : en.2 = en.1.2.length - 1 := by omega
      right
      rw [roomAt, hz]
      exact last_getD en.1.2 e hprops.lastE
  by_cases hinti : internalEnt (ents.getD i dEnt)
  · by_cases hintj : internalEnt (ents.getD j dEnt)
    · exfalso
      have hpw := List.pairwise_iff_getElem.mp inv.col
      rcases Nat.lt_or_ge i j with hlt | hge
      · have hnc := hpw i j hi hj hlt
        apply hnc
        · rw [← List.getD_eq_getElem ents dEnt hi]
          exact hinti
        · rw [← List.getD_eq_getElem ents dEnt hj]
          exact hintj
        · rw [← List.getD_eq_getElem ents dEnt hi,
            ← List.getD_eq_getElem ents dEnt hj]
          exact hroom
      · have hlt2 : j < i := by omega
        have hnc := hpw j i hj hi hlt2
        apply hnc
        · rw [← List.getD_eq_getElem ents dEnt hj]
          exact hintj
        · rw [← List.getD_eq_getElem ents dEnt hi]
          exact hinti
        · rw [← List.getD_eq_getElem ents dEnt hj,
            ← List.getD_eq_getElem ents dEnt hi]
          exact hroom.symm
    · rw [hroom]
      exact hedge _ hmemj hintj
  · exact hedge _ hmemi hinti

/-- The initial simulator state — all ants at position 0, occupancy
empty — satisfies the invariant whenever the assigned paths are
pipeline-shaped and pairwise disjoint-or-equal. -/
theorem initial_simInv (s e : String) (entries : List (Nat × List String))
    (hids : (entries.map (fun ep => ep.1)).Nodup)
    (hprops : ∀ ep ∈ entries, PathProps s e ep.2)
    (hdisj : (entries.map (fun ep => ep.2)).Pairwise (PathsRel s e)) :
    SimInv s e ((sortById entries).map (fun ep => (ep, 0))) [] := by
  have hperm := sortById_perm entries
  constructor
  · intro en hen
    obtain ⟨ep, hep, heq⟩ := List.mem_map.mp hen
    rw [← heq]
    exact hprops ep (hperm.mem_iff.mp hep)
  · intro en hen
    obtain ⟨ep, hep, heq⟩ := List.mem_map.mp hen
    rw [← heq]
    have h := (hprops ep (hperm.mem_iff.mp hep)).nonnil
    exact List.length_pos.mpr h
  · have hmm : (((sortById entries).map (fun ep => (ep, 0))).map
        (fun en => en.1.2)) = (sortById entries).map (fun ep => ep.2) := by
      rw [List.map_map]
      rfl
    rw [hmm]
    exact (List.Perm.pairwise_iff (fun hab => pathsRel_symm s e hab)
      (hperm.map (fun ep => ep.2))).mpr hdisj
  · have hmm : (((sortById entries).map (fun ep => (ep, 0))).map
        (fun en => en.1.1)) = (sortById entries).map (fun ep => ep.1) := by
      rw [List.map_map]
      rfl
    rw [hmm]
    exact ((hperm.map (fun ep => ep.1)).nodup_iff).mpr hids
  · apply pairwise_of_mem_rel
    intro a ha b hb hia hib
    exfalso
    obtain ⟨ep, hep, heq⟩ := List.mem_map.mp ha
    obtain ⟨h1, h2⟩ := hia
    rw [← heq] at h1
    have h1b : (0:Nat) < 0 := h1
    omega
  · intro r
    constructor
    · intro h
      cases h
    · rintro ⟨x, hx, hint, _⟩
      obtain ⟨ep, hep, heq⟩ := List.mem_map.mp hx
      obtain ⟨h1, h2⟩ := hint
      rw [← heq] at h1
      have h1b : (0:Nat) < 0 := h1
      omega
  · exact List.nodup_nil

/-- Under the pipeline-shape hypotheses, the fuel `simFuel` always lets
the turn loop run to completion: `getAntMovesLog` never returns `none`. -/
theorem getAntMovesLog_isSome (s e : String) (entries : List (Nat × List String))
    (hids : (entries.map (fun ep => ep.1)).Nodup)
    (hprops : ∀ ep ∈ entries, PathProps s e ep.2)
    (hdisj : (entries.map (fun ep => ep.2)).Pairwise (PathsRel s e)) :
    (getAntMovesLog entries e).isSome = true := by
  have hinv := initial_simInv s e entries hids hprops hdisj
  have hperm := sortById_perm entries
  show (simLoop e (simFuel entries)
    ((sortById entries).map (fun ep => (ep, 0))) [] []).isSome = true
  apply simLoop_terminates s e (simFuel entries) _ [] [] hinv
  have h1 : sumM ((sortById entries).map (fun ep => (ep, 0))) =
      ((sortById entries).map (fun ep => ep.2.length - 1)).sum := by
    rw [sumM, List.map_map]
    rfl
  rw [h1]
  have h2 : ((sortById entries).map (fun ep => ep.2.length - 1)).sum ≤
      ((sortById entries).map (fun ep => ep.2.length)).sum :=
    List.sum_le_sum (fun i _ => by omega)
  have h3 : ((sortById entries).map (fun ep => ep.2.length)).sum =
      (entries.map (fun ep => ep.2.length)).sum :=
    (hperm.map (fun ep => ep.2.length)).sum_eq
  rw [simFuel]
  omega

theorem drop1_drop_cons (p : List String) (pos : Nat) (h : pos + 1 < p.length) :
    (p.drop 1).drop pos = p.getD (pos + 1) "" :: (p.drop 1).drop (pos + 1) := by
  have hlt : pos < (p.drop 1).length := by
    rw [List.length_drop]
    omega
  rw [List.drop_eq_getElem_cons hlt]
  congr 1
  rw [← List.getD_eq_getElem (p.drop 1) "" hlt]
  rw [List.getD_eq_getElem?_getD, List.getD_eq_getElem?_getD, List.getElem?_drop]
  rw [Nat.add_comm 1 pos]

/-- Trace exactness: when the loop terminates, the destinations each
ant receives across the whole log are exactly the remaining rooms of
its assigned path, in order. -/
theorem simLoop_moves (s e : String) :
    ∀ (fuel : Nat) (ents : List Ent) (occ : List String)
      (acc log : List (List Move)),
    SimInv s e ents occ →
    simLoop e fuel ents occ acc = some log →
    ∀ k, k < ents.length →
      movesOf ((ents.getD k dEnt).1.1) log.flatten =
        movesOf ((ents.getD k dEnt).1.1) acc.flatten ++
          ((ents.getD k dEnt).1.2.drop 1).drop ((ents.getD k dEnt).2) := by
  intro fuel
  induction fuel with
  | zero =>
    intro ents occ acc log _ h
    cases h
  | succ n ih =>
    intro ents occ acc log inv hrun k hk
    obtain ⟨sh1, sh2, sh3, sh4, sh5, sh6, sh7⟩ := stepAnts_shape e ents occ [] inv.ids
    simp only [simLoop, doTurn] at hrun
    split at hrun
    · rename_i hfin
      rw [Option.some_inj] at hrun
      subst hrun
      have hall : ∀ a ∈ ents, finishedEnt a := by
        intro a ha
        rw [sh5] at hfin
        have := List.countP_eq_length.mp hfin a ha
        simpa using this
      have hstall : (stepAnts e ents occ []).moves = [] :=
        (doTurn_stall_iff s e ents occ inv).mpr hall
      rw [hstall]
      simp only [List.isEmpty_nil, if_true]
      have hfin2 : finishedEnt (ents.getD k dEnt) := by
        apply hall
        rw [List.getD_eq_getElem ents dEnt hk]
        exact List.getElem_mem hk
      have hflen : (ents.getD k dEnt).1.2.length ≤ (ents.getD k dEnt).2 + 1 := hfin2
      have hdrop : ((ents.getD k dEnt).1.2.drop 1).drop ((ents.getD k dEnt).2) = [] := by
        apply List.drop_eq_nil_of_le
        rw [List.length_drop]
        omega
      rw [hdrop, List.append_nil]
    · rename_i hfin
      have hinv2 : SimInv s e (stepAnts e ents occ []).ents
          (stepAnts e ents occ []).occ :=
        doTurn_inv s e ents occ inv
      have hk2 : k < (stepAnts e ents occ []).ents.length := by omega
      have ihres := ih (stepAnts e ents occ []).ents (stepAnts e ents occ []).occ
        _ log hinv2 hrun k hk2
      have hfst := map_fst_getD_eq (stepAnts e ents occ []).ents ents sh1 sh2 k hk
      rcases sh3 k hk with hsame | hadv
      · have h7 := sh7 k hk
        rw [if_neg (by omega)] at h7
        rw [hfst, hsame] at ihres
        rw [ihres]
        congr 1
        split
        · rfl
        · rw [List.flatten_append, movesOf_append]
          have hfl : ([(stepAnts e ents occ []).moves]).flatten =
              (stepAnts e ents occ []).moves := by simp
          rw [hfl, h7, List.append_nil]
      · have h7 := sh7 k hk
        rw [if_pos hadv.1] at h7
        have hmne : (stepAnts e ents occ []).moves ≠ [] := by
          intro hc
          rw [hc] at h7
          simp [movesOf] at h7
        rw [hfst, hadv.1] at ihres
        rw [ihres]
        have hemp : (stepAnts e ents occ []).moves.isEmpty = false := by
          cases hmq : (stepAnts e ents occ []).moves with
          | nil => exact absurd hmq hmne
          | cons a l => rfl
        have hcnd : ¬((stepAnts e ents occ []).moves.isEmpty = true) := by
          rw [hemp]
          simp
        rw [if_neg hcnd]
        rw [List.flatten_append, movesOf_append]
        have hfl : ([(stepAnts e ents occ []).moves]).flatten =
            (stepAnts e ents occ []).moves := by simp
        rw [hfl, h7]
        rw [drop1_drop_cons _ _ hadv.2]
        simp

/-- The turn loop never returns, whatever fuel it is given: the
fuel-free Go loop (src/main.go:295) runs forever on this state. -/
def SimDiverges (entries : List (Nat × List String)) (e : String) : Prop :=
  ∀ (fuel : Nat) (acc : List (List Move)),
    simLoop e fuel ((sortById entries).map (fun ep => (ep, 0))) [] acc = none

theorem getLast?_drop_one (p : List String) (e : String)
    (hl : p.getLast? = some e) (hne : p.drop 1 ≠ []) :
    (p.drop 1).getLast? = some e := by
  match p with
  | [] => cases hl
  | [x] => exact absurd rfl hne
  | x :: y :: t =>
    have h1 : (x :: y :: t).drop 1 = y :: t := rfl
    rw [h1]
    rw [List.getLast?_cons_cons] at hl
    exact hl

/-- **C5 (counterexample).**  The claim quantifies over every
assignment; on this two-ant assignment whose paths cross (each ant's
next room is held by the other) the first turn succeeds and then no
turn ever makes a move while neither ant is finished — the loop of
`getAntMoves` neither terminates nor aborts with a diagnostic, it
simply spins (here: returns `none` for every fuel). -/
theorem C5_counterexample :
    SimDiverges [(1, ["A", "X", "Y"]), (2, ["B", "Y", "X"])] "Z" := by
  intro fuel acc
  cases fuel with
  | zero => rfl
  | succ n =>
    exact simLoop_stuck_none "Z"
      [((1, ["A", "X", "Y"]), 1), ((2, ["B", "Y", "X"]), 1)] ["Y", "X"]
      rfl (by decide) n (acc ++ [[(1, "X"), (2, "Y")]])

/-- **C5 (amended).**  For pipeline-shaped assignments — distinct ant
ids, every path running from source to sink without repeats or blank
names, and the paths pairwise equal or disjoint — the turn loop does
terminate; a turn makes no move exactly when every ant is finished
(so the loop ends on the first no-move turn, which is exactly when all
ants are at the sink); and the ended-on empty turn never appears in
the output.  No abort/diagnostic path exists in the loop: on
non-pipeline assignments it can spin forever (see the counterexample). -/
theorem C5_amended_termination (s e : String) (entries : List (Nat × List String))
    (hids : (entries.map (fun ep => ep.1)).Nodup)
    (hprops : ∀ ep ∈ entries, PathProps s e ep.2)
    (hdisj : (entries.map (fun ep => ep.2)).Pairwise (PathsRel s e)) :
    (getAntMovesLog entries e).isSome = true ∧
    (∀ (ents : List Ent) (occ : List String), SimInv s e ents occ →
      ((doTurn e ents occ).moves = [] ↔ ∀ en ∈ ents, finishedEnt en)) ∧
    (∀ log, getAntMovesLog entries e = some log → ∀ t ∈ log, t ≠ []) := by
  refine ⟨getAntMovesLog_isSome s e entries hids hprops hdisj, ?_, ?_⟩
  · intro ents occ inv
    exact doTurn_stall_iff s e ents occ inv
  · intro log hlog
    exact simLoop_no_empty e (simFuel entries)
      ((sortById entries).map (fun ep => (ep, 0))) [] [] log
      (by intro t ht; cases ht) hlog

theorem C5_amended_witness :
    (getAntMovesLog [(2, ["start", "mid", "end"])] "end").isSome = true :=
  (C5_amended_termination "start" "end" [(2, ["start", "mid", "end"])]
    (by decide)
    (fun ep hep => by
      rw [List.mem_singleton] at hep
      subst hep
      exact ⟨by decide, rfl, by decide, rfl, by decide⟩)
    (by simp)).1

/-- **C2.**  For pipeline-shaped assignments: (1) after any number of
turns, two distinct ants share a room only if it is the source or the
sink (room capacity holds at every turn boundary); (2) when the loop
terminates, each ant's logged destinations are exactly the consecutive
rooms of its assigned path after the source, in order; (3) hence each
ant that moves at all ends at the sink — after the last emitted turn
every ant is at the sink. -/
theorem C2_schedule_correctness (s e : String) (entries : List (Nat × List String))
    (hids : (entries.map (fun ep => ep.1)).Nodup)
    (hprops : ∀ ep ∈ entries, PathProps s e ep.2)
    (hdisj : (entries.map (fun ep => ep.2)).Pairwise (PathsRel s e)) :
    (∀ (n i j : Nat),
      i < (iterTurns e n ((sortById entries).map (fun ep => (ep, 0))) []).1.length →
      j < (iterTurns e n ((sortById entries).map (fun ep => (ep, 0))) []).1.length →
      i ≠ j →
      roomAt ((iterTurns e n ((sortById entries).map (fun ep => (ep, 0))) []).1.getD i dEnt) =
        roomAt ((iterTurns e n ((sortById entries).map (fun ep => (ep, 0))) []).1.getD j dEnt) →
      roomAt ((iterTurns e n ((sortById entries).map (fun ep => (ep, 0))) []).1.getD i dEnt) = s ∨
      roomAt ((iterTurns e n ((sortById entries).map (fun ep => (ep, 0))) []).1.getD i dEnt) = e) ∧
    (∀ log, getAntMovesLog entries e = some log →
      ∀ k, k < ((sortById entries).map (fun ep => (ep, 0))).length →
      movesOf ((((sortById entries).map (fun ep => (ep, 0))).getD k dEnt).1.1) log.flatten =
        (((sortById entries).map (fun ep => (ep, 0))).getD k dEnt).1.2.drop 1) ∧
    (∀ log, getAntMovesLog entries e = some log →
      ∀ k, k < ((sortById entries).map (fun ep => (ep, 0))).length →
      (((sortById entries).map (fun ep => (ep, 0))).getD k dEnt).1.2.drop 1 ≠ [] →
      (movesOf ((((sortById entries).map (fun ep => (ep, 0))).getD k dEnt).1.1)
        log.flatten).getLast? = some e) := by
  have hinv0 := initial_simInv s e entries hids hprops hdisj
  have htrace : ∀ log, getAntMovesLog entries e = some log →
      ∀ k, k < ((sortById entries).map (fun ep => (ep, 0))).length →
      movesOf ((((sortById entries).map (fun ep => (ep, 0))).getD k dEnt).1.1) log.flatten =
        (((sortById entries).map (fun ep => (ep, 0))).getD k dEnt).1.2.drop 1 := by
    intro log hlog k hk
    have hmv := simLoop_moves s e (simFuel entries)
      ((sortById entries).map (fun ep => (ep, 0))) [] [] log hinv0 hlog k hk
    have hmem : ((sortById entries).map (fun ep => (ep, 0))).getD k dEnt ∈
        (sortById entries).map (fun ep => (ep, 0)) := by
      rw [List.getD_eq_getElem _ dEnt hk]
      exact List.getElem_mem hk
    obtain ⟨ep, hep, heq⟩ := List.mem_map.mp hmem
    have hpos : (((sortById entries).map (fun ep => (ep, 0))).getD k dEnt).2 = 0 := by
      rw [← heq]
    rw [hpos, List.drop_zero] at hmv
    simpa using hmv
  refine ⟨?_, htrace, ?_⟩
  · intro n i j hi hj hij hroom
    exact simInv_capacity s e _ _ (iterTurns_inv s e n _ [] hinv0) i j hi hj hij hroom
  · intro log hlog k hk hne
    rw [htrace log hlog k hk]
    apply getLast?_drop_one
    · have hmem : ((sortById entries).map (fun ep => (ep, 0))).getD k dEnt ∈
          (sortById entries).map (fun ep => (ep, 0)) := by
        rw [List.getD_eq_getElem _ dEnt hk]
        exact List.getElem_mem hk
      obtain ⟨ep, hep, heq⟩ := List.mem_map.mp hmem
      have hlast := (hprops ep ((sortById_perm entries).mem_iff.mp hep)).lastE
      have hpath : (((sortById entries).map (fun ep => (ep, 0))).getD k dEnt).1.2
          = ep.2 := by
        rw [← heq]
      rw [hpath]
      exact hlast
    · exact hne

theorem C2_witness :
    getAntMovesLog [(1, ["start", "end"])] "end" = some [[(1, "end")]] ∧
    movesOf 1 ([[(1, "end")]] : List (List Move)).flatten = ["start", "end"].drop 1 := by
  constructor
  · rfl
  · have h := (C2_schedule_correctness "start" "end" [(1, ["start", "end"])]
      (by decide)
      (fun ep hep => by
        rw [List.mem_singleton] at hep
        subst hep
        exact ⟨by decide, rfl, by decide, rfl, by decide⟩)
      (by simp)).2.1
    exact h [[(1, "end")]] rfl 0 (by decide)

/-- The counterexample input for the optimality claim: source `S`,
sink `T`, two internal relay rooms `a`, `b`, a direct tunnel `S-T`,
and five ants. -/
def G5lines : List String :=
  ["5", "##start", "S 0 0", "##end", "T 5 0", "a 1 1", "b 1 2",
   "S-T", "S-a", "a-T", "S-b", "b-T"]

/-- The graph `readInput` builds from `G5lines`. -/
def g5 : Graph :=
  ⟨[⟨"S", 0, 0, true, false⟩, ⟨"T", 5, 0, false, true⟩,
    ⟨"a", 1, 1, false, false⟩, ⟨"b", 1, 2, false, false⟩],
   [("S", "T"), ("T", "S"), ("S", "a"), ("a", "S"), ("a", "T"),
    ("T", "a"), ("S", "b"), ("b", "S"), ("b", "T"), ("T", "b")],
   5, "S", "T"⟩

/-- The movement log the pipeline emits on `G5lines`. -/
def G5log : List (List Move) :=
  [[(1, "T"), (3, "a"), (4, "b"), (5, "T")], [(2, "T"), (3, "T"), (4, "T")]]

/-- Specification-worded model of a legal two-turn schedule on `g5`
(five ants start at the source; `p1 i`, `p2 i` are ant `i`'s rooms at
the ends of turns 1 and 2): moves follow tunnels, at most one ant per
internal room at the end of each turn, and at most one ant per tunnel
per turn. -/
def TwoTurnSchedLegal (p1 p2 : Fin 5 → String) : Prop :=
  (∀ i, p1 i = g5.startRoom ∨ Graph.hasEdge g5 g5.startRoom (p1 i) = true) ∧
  (∀ i, p2 i = p1 i ∨ Graph.hasEdge g5 (p1 i) (p2 i) = true) ∧
  (∀ i j, i ≠ j → p1 i = p1 j → p1 i = g5.startRoom ∨ p1 i = g5.endRoom) ∧
  (∀ i j, i ≠ j → p2 i = p2 j → p2 i = g5.startRoom ∨ p2 i = g5.endRoom) ∧
  (∀ i j, i ≠ j → p1 i ≠ g5.startRoom → p1 i ≠ p1 j) ∧
  (∀ i j, i ≠ j → p2 i ≠ p1 i → p2 j ≠ p1 j →
    ¬((p1 i = p1 j ∧ p2 i = p2 j) ∨ (p1 i = p2 j ∧ p2 i = p1 j)))

/-- No legal schedule on `g5` brings all five ants to the sink within
two turns. -/
def NoLegal2TurnG5 : Prop :=
  ∀ p1 p2 : Fin 5 → String, TwoTurnSchedLegal p1 p2 →
    ¬(∀ i, p2 i = g5.endRoom)

theorem g5_edge_from_S (y : String) (h : Graph.hasEdge g5 "S" y = true) :
    y = "T" ∨ y = "a" ∨ y = "b" := by
  simp only [Graph.hasEdge, g5] at h
  simp at h
  tauto

theorem g5_no_legal_two_turn : NoLegal2TurnG5 := by
  rintro p1 p2 ⟨h1, h2, hcap1, hcap2, htun1, htun2⟩ hdone
  have hdone2 : ∀ i, p2 i = "T" := fun i => hdone i
  have hrange : ∀ i : Fin 5, p1 i = "T" ∨ p1 i = "a" ∨ p1 i = "b" ∨ p1 i = "S" := by
    intro i
    rcases h1 i with h | h
    · exact Or.inr (Or.inr (Or.inr h))
    · rcases g5_edge_from_S _ h with h | h | h
      · exact Or.inl h
      · exact Or.inr (Or.inl h)
      · exact Or.inr (Or.inr (Or.inl h))
  have hinj : Function.Injective (fun i =>
      if p1 i = "T" then (0 : Fin 4) else if p1 i = "a" then 1
      else if p1 i = "b" then 2 else 3) := by
    intro i j hf
    by_contra hij
    simp only at hf
    rcases hrange i with hi | hi | hi | hi <;>
      rcases hrange j with hj | hj | hj | hj <;>
      rw [hi, hj] at hf <;>
      (try simp at hf)
    · exact htun1 i j hij (by rw [hi]; decide) (hi.trans hj.symm)
    · have h := hcap1 i j hij (hi.trans hj.symm)
      rw [hi] at h
      rcases h with h | h <;> exact absurd h (by decide)
    · have h := hcap1 i j hij (hi.trans hj.symm)
      rw [hi] at h
      rcases h with h | h <;> exact absurd h (by decide)
    · have hmi : p2 i ≠ p1 i := by
        rw [hdone2 i, hi]
        decide
      have hmj : p2 j ≠ p1 j := by
        rw [hdone2 j, hj]
        decide
      exact htun2 i j hij hmi hmj
        (Or.inl ⟨hi.trans hj.symm, (hdone2 i).trans (hdone2 j).symm⟩)
  have hcard := Fintype.card_le_of_injective _ hinj
  rw [Fintype.card_fin, Fintype.card_fin] at hcard
  omega

/-- **C1 (counterexample).**  On `G5lines` the pipeline emits a 2-line
log whose first turn moves both ant 1 and ant 5 from the source
straight to the sink — the single tunnel `S-T` is traversed twice in
one turn because `tunnelsUsed` is keyed by the current room only and
each write overwrites the previous one — yet no schedule obeying the
room-capacity and tunnel-capacity constraints can finish five ants in
two turns (at most four ants can be through or staged after turn 1),
so the emitted log is not a legal minimum-turn schedule and beats the
true legal optimum. -/
theorem C1_counterexample :
    readInputE G5lines = .ok g5 ∧
    mainResult G5lines = .success G5log ∧
    G5log.length = 2 ∧
    ((1, "T") ∈ G5log.getD 0 [] ∧ (5, "T") ∈ G5log.getD 0 []) ∧
    NoLegal2TurnG5 := by
  exact ⟨rfl, rfl, by decide, ⟨by decide, by decide⟩, g5_no_legal_two_turn⟩

end LemIn
